import Mathlib

/-!
Verification development for the lowering stage of the storyscript compiler
(tree dispatcher "Compiler", value normalizer "Objects", line store "Lines").

The repository ships the unit tests of these components; the components
themselves are modelled here from the specification (spec.md), with the unit
tests under src/tests pinning the observable behaviour (argument shapes,
emitted line fields, error codes).  Machine strings stay strings, addresses
are the source line numbers rendered as strings (see src/storyscript/tree/
Method.py, `self.lineno = str(line_number)`), and fallible compilation steps
return `Except CompileError Lines`.
-/

namespace Storyscript

/-- Opening curly brace character (written via its code point so that brace
characters never appear in string literals). -/
def lcurly : Char := Char.ofNat 123

/-- Closing curly brace character. -/
def rcurly : Char := Char.ofNat 125

/-- Modelled from the spec: the Normalized Value tagged union (§3).  The
`string` constructor carries the rewritten text plus the ordered placeholder
values (an empty list when the literal has no placeholders); `path` carries
the flattened segment names; `expression` carries the operator template with
positional holes plus operand values; `argumentV` a named call argument and
`mutationV` a mutation fragment (name plus arguments).  Dynamic path
segments and dict values of the spec are not exercised by any claim and are
left out of the model. -/
inductive Value where
  | string (text : String) (values : List Value)
  | number (n : Int)
  | boolean (b : Bool)
  | file (text : String)
  | listV (items : List Value)
  | typeV (name : String)
  | path (segments : List String)
  | expression (template : String) (values : List Value)
  | argumentV (name : String) (argument : Value)
  | mutationV (name : String) (arguments : List Value)

/-- Modelled from the spec: one IR line (§3), owned by the Line Store and
keyed by its address.  Optional fields are `none` when absent. -/
structure Line where
  method : String
  ln : String
  args : Option (List Value) := none
  output : Option (List String) := none
  enter : Option String := none
  exit : Option String := none
  parent : Option String := none
  service : Option String := none
  command : Option String := none
  function : Option String := none

/-- Modelled from the spec: a compile-time error with its stable string code
and the named context fields used by the claims (§7, §6). -/
structure CompileError where
  code : String
  name : Option String := none
  function_name : Option String := none
  line : Option String := none
  deriving DecidableEq

/-- Modelled from the spec: the Line Store (§4.2) — the address-keyed line
table (kept in append order, oldest first; the spec guarantees addresses are
never reused, §3), the address of the most recently appended line, and the
scope/registry bookkeeping: variables in scope, declared functions
(name → declaring address), imported modules (alias → path), services
referenced. -/
structure Lines where
  lines : List (String × Line) := []
  lastLine : Option String := none
  vars : List String := []
  functions : List (String × String) := []
  modules : List (String × String) := []
  services : List String := []

/-- Look a key up in a string-keyed association list (first match). -/
def lookupStr {α : Type} : List (String × α) → String → Option α
  | [], _ => none
  | (a, v) :: rest, k => if a == k then some v else lookupStr rest k

/-- Fetch the line stored at an address (first match in append order; the
spec's no-address-reuse invariant, §3, makes the match unique on stores the
compiler builds). -/
def Lines.get (L : Lines) (a : String) : Option Line :=
  lookupStr L.lines a

/-- `last()` — the most recently appended address, `none` when nothing has
been appended yet (§4.2). -/
def Lines.last (L : Lines) : Option String :=
  L.lastLine

/-- `append` — allocate the line's address (its source line number) and
store the line (§4.2). -/
def Lines.appendLine (L : Lines) (method ln : String)
    (args : Option (List Value)) (output : Option (List String))
    (enter : Option String) (parent : Option String)
    (service : Option String) (command : Option String)
    (function : Option String) : Lines :=
  { L with
    lines := L.lines ++ [(ln,
      { method := method, ln := ln, args := args, output := output,
        enter := enter, exit := none, parent := parent,
        service := service, command := command, function := function })],
    lastLine := some ln }

/-- Rewrite one stored line in place (spec §9: "amend the most recent line"
operations used by continuation constructs and method rewrites). -/
def Lines.updateLine (L : Lines) (a : String) (f : Line → Line) : Lines :=
  { L with
    lines := L.lines.map (fun p => (p.1, if p.1 == a then f p.2 else p.2)) }

/-- Rewrite the method of the most recently appended line (used by the
assignment handler, which appends an `expression` line and then rewrites its
method to `set`, and by the `when` handler). -/
def Lines.setLastMethod (L : Lines) (m : String) : Lines :=
  match L.lastLine with
  | none => L
  | some a => L.updateLine a (fun l => { l with method := m })

/-- `set_name` — register the freshly assigned variable (head segment of the
left-hand path) as in scope (§4.2). -/
def Lines.set_name (L : Lines) (names : List String) : Lines :=
  { L with vars := names.headD "" :: L.vars }

/-- `is_variable_defined` — scope lookup used to disambiguate a bare name as
a known-variable target versus a service invocation (§4.2). -/
def Lines.is_variable_defined (L : Lines) (name : String) : Bool :=
  L.vars.contains name

/-- `set_scope` — open a lexical frame for the block at `address`,
registering `output` as bindings visible to the nested body (§4.2, §9). -/
def Lines.set_scope (L : Lines) (_address : String) (_parent : Option String)
    (output : List String) : Lines :=
  { L with vars := output ++ L.vars }

/-- `finish_scope` — close the bookkeeping for the frame once its header
line is fully described (§4.2); no observable effect on the store fields the
claims read. -/
def Lines.finish_scope (L : Lines) (_address : String) : Lines :=
  L

/-- Whether a line's method makes it a branch header whose `exit` can be
stamped by a following sibling branch (§4.2). -/
def isBranchHeader (m : String) : Bool :=
  m == "if" || m == "elif" || m == "try" || m == "catch"

/-- Helper of `Lines.set_exit`: stamp `line` as the `exit` of the most
recently appended branch-header line (method `if`/`elif`/`try`/`catch`);
the table is kept oldest-first, so the most recent header is the last
entry whose method qualifies. -/
def setExitGo : List (String × Line) → String → List (String × Line)
  | [], _ => []
  | (a, l) :: rest, line =>
    if rest.any (fun p => isBranchHeader p.2.method) then
      (a, l) :: setExitGo rest line
    else if isBranchHeader l.method then
      (a, { l with exit := some line }) :: rest
    else
      (a, l) :: rest

/-- `set_exit` — stamp the `exit` address on the prior sibling branch header
(chains if→elif→else and try→catch→finally, §4.2). -/
def Lines.set_exit (L : Lines) (line : String) : Lines :=
  { L with lines := setExitGo L.lines line }

/-- `execute` — append an `execute` line and record the referenced service
in the services registry (§4.2, tests `test_compiler_service*`). -/
def Lines.execute (L : Lines) (ln service : String) (command : Option String)
    (arguments : List Value) (output : List String) (enter : Option String)
    (parent : Option String) : Lines :=
  let L1 := L.appendLine "execute" ln (some arguments) (some output) enter
    parent (some service) command none
  { L1 with
    services := if L1.services.contains service then L1.services
      else L1.services ++ [service] }

/-- A lexical token of the syntax tree (value only; positions are not needed
by the claims). -/
structure Token where
  value : String
  deriving DecidableEq

/-- An `output` syntax-tree node: an ordered sequence of name tokens. -/
structure OutputNode where
  children : List Token
  deriving DecidableEq

namespace Compiler

/-- Modelled from the spec: `Compiler.output` — `[]` for an absent node,
otherwise the ordered child token values
(tests `test_compiler_output` / `test_compiler_output_none`). -/
def output : Option OutputNode → List String
  | none => []
  | some t => t.children.map Token.value

end Compiler

/-- Strip the surrounding quote (or backtick) characters off a raw token
(Python `value[1:-1]`). -/
def stripQuotes (s : String) : String :=
  String.mk ((s.data.drop 1).dropLast)

namespace Objects

/-- Modelled from the spec: the single global pattern match over the raw
text of a string literal (§4.1) — the placeholder scanner for the pattern
`\x7b([^\x7d]*)\x7d`, returning the matched identifiers in order.  The
second argument is `none` outside a placeholder and `some acc` (collected
characters, reversed) inside one. -/
def findPlaceholdersGo : List Char → Option (List Char) → List String
  | [], _ => []
  | c :: rest, none =>
    if c = lcurly then findPlaceholdersGo rest (some [])
    else findPlaceholdersGo rest none
  | c :: rest, some acc =>
    if c = rcurly then String.mk acc.reverse :: findPlaceholdersGo rest none
    else findPlaceholdersGo rest (some (c :: acc))

/-- All placeholder identifiers occurring in a text, in order. -/
def findPlaceholders (text : String) : List String :=
  findPlaceholdersGo text.data none

/-- Replace every occurrence of `pat` in `cs` by `repl`, leftmost first,
non-overlapping (the behaviour of Python `str.replace`).  The fuel is the
length of `cs`; each step consumes at least one character, so
`replaceAllGo cs.length cs pat repl` is total on its intended inputs. -/
def replaceAllGo : Nat → List Char → List Char → List Char → List Char
  | 0, _, _, _ => []
  | _ + 1, [], _, _ => []
  | fuel + 1, c :: rest, pat, repl =>
    if pat ≠ [] && pat.isPrefixOf (c :: rest) then
      repl ++ replaceAllGo fuel ((c :: rest).drop pat.length) pat repl
    else
      c :: replaceAllGo fuel rest pat repl

/-- Replace every occurrence of `pat` in `s` by `repl`. -/
def replaceAll (s pat repl : String) : String :=
  String.mk (replaceAllGo s.data.length s.data pat.data repl.data)

/-- Modelled from the spec: `Objects.replace_placeholders` — replace each
matched placeholder `\x7bname\x7d` with an empty hole `\x7b\x7d`
(test `test_objects_replace_placeholders`). -/
def replace_placeholders (text : String) (ms : List String) : String :=
  ms.foldl
    (fun t m =>
      replaceAll t (String.mk (lcurly :: m.data ++ [rcurly]))
        (String.mk [lcurly, rcurly]))
    text

/-- Modelled from the spec: `Objects.placeholders_values` — each identifier
referenced in a placeholder is compiled as a variable path
(test `test_objects_placeholders_values`). -/
def placeholders_values (ms : List String) : List Value :=
  ms.map (fun m => Value.path [m])

/-- Modelled from the spec: `Objects.string` — strip the quotes off the raw
token, scan for placeholders; without placeholders the literal text is the
value, with placeholders the text is rewritten with empty holes and the
compiled placeholder values are attached in order (§4.1,
tests `test_objects_string` / `test_objects_string_templating`). -/
def string (raw : String) : Value :=
  let text := stripQuotes raw
  let ms := findPlaceholders text
  if ms.isEmpty then
    Value.string text []
  else
    Value.string (replace_placeholders text ms)
      (placeholders_values ms)

/-- Re-substitute values into the empty holes of a rewritten template text,
in order: each hole `\x7b\x7d` is refilled with the next name, reproducing
the original placeholder spelling `\x7bname\x7d`. -/
def refill : List Char → List String → List Char
  | [], _ => []
  | [c], _ => [c]
  | c :: c2 :: rest, vs =>
    if c = lcurly && c2 = rcurly then
      match vs with
      | v :: vtail => (lcurly :: v.data ++ [rcurly]) ++ refill rest vtail
      | [] => lcurly :: rcurly :: refill rest []
    else
      c :: refill (c2 :: rest) vs

/-- A leaf-shaped value node of the syntax tree, as consumed by
`Objects.values` (§4.1).  Composite (list/map) nodes are not exercised by
any claim and are left out; already-normalized composite values may still
appear inside IR lines. -/
inductive ValueNode where
  | stringN (raw : String)
  | numberN (n : Int)
  | booleanN (b : Bool)
  | typesN (name : String)
  | pathN (names : List String)
  | fileN (raw : String)

/-- Modelled from the spec: `Objects.values` — dispatch on the node's kind
to the matching normalizer; a bare identifier leaf falls back to `path`
(§4.1, tests `test_objects_values*`). -/
def values : ValueNode → Value
  | .stringN raw => string raw
  | .numberN n => Value.number n
  | .booleanN b => Value.boolean b
  | .typesN name => Value.typeV name
  | .pathN names => Value.path names
  | .fileN raw => Value.file (stripQuotes raw)

/-- Modelled from the spec: `Objects.fill_expression` — join the left hole,
the operator and the right hole with single spaces
(test `test_fill_expression`). -/
def fill_expression (left op right : String) : String :=
  left ++ " " ++ op ++ " " ++ right

/-- An empty template hole `\x7b\x7d`. -/
def hole : String := String.mk [lcurly, rcurly]

/-- An expression node: a trivial expression wrapping one unary value, a
binary operator application, or one adjacent pair of a chained
comparison (§4.1). -/
inductive ExprNode where
  | unary (pathValue : ValueNode)
  | absolute (op : String) (left right : ValueNode)
  | comparison (op : String) (left right : ValueNode)

/-- The result of `Objects.expression`: a single expression value for the
binary case, or an ordered sequence of values for the unary and
chained-comparison cases (tests `test_objects_expression*`). -/
inductive ExprResult where
  | single (v : Value)
  | many (vs : List Value)

/-- Modelled from the spec: `Objects.expression` (§4.1).  A unary value is
normalized and returned without an expression wrapper — the unit test
`test_objects_expression` pins the result as the one-element sequence
holding the normalized value.  A binary application returns the single
`expression` value; a comparison pair returns a one-element sequence of
`expression` values. -/
def expression : ExprNode → ExprResult
  | .unary pv => .many [values pv]
  | .absolute op l r =>
    .single (Value.expression (fill_expression hole op hole)
      [values l, values r])
  | .comparison op l r =>
    .many [Value.expression (fill_expression hole op hole)
      [values l, values r]]

end Objects

/-- The right-hand side of an assignment, as resolved by the grammar
(§4.3 `assignment` row): a unary literal/path, a general expression, a
service invocation, a mutation chain, or a function call. -/
inductive Assigned where
  | unary (v : Value)
  | expr (e : Value)
  | service (path : List String) (command : Option String) (args : List Value)
  | mutationA (base : Value) (fragment : Value) (chained : List Value)
  | callA (names : List String) (args : List Value)

/-- Modelled from the spec: the closed enumeration of statement kinds the
dispatcher recognizes (§4.3 dispatch table, §9 design note on dynamic
dispatch).  Every statement carries its source line number `ln`, the
address its IR line will take.  Nested blocks are ordered statement
lists; `when` blocks are not exercised by any claim and are left out. -/
inductive Statement where
  | assignment (ln : String) (names : List String) (rhs : Assigned)
  | serviceBlock (ln : String) (path : List String) (command : Option String)
      (args : List Value) (output : List String) (body : List Statement)
  | callExpression (ln : String) (names : List String) (args : List Value)
  | ifBlock (ln : String) (cond : Value) (body : List Statement)
      (elseifs : List Statement) (elsePart : Option Statement)
  | elseifBlock (ln : String) (cond : Value) (body : List Statement)
  | elseBlock (ln : String) (body : List Statement)
  | foreachBlock (ln : String) (entity : Value) (output : List String)
      (body : List Statement)
  | whileBlock (ln : String) (cond : Value) (body : List Statement)
  | functionBlock (ln : String) (name : String) (args : List Value)
      (output : List String) (body : List Statement)
  | tryBlock (ln : String) (body : List Statement)
      (catchPart : Option Statement) (finallyPart : Option Statement)
  | catchBlock (ln : String) (names : List String) (body : List Statement)
  | finallyBlock (ln : String) (body : List Statement)
  | returnStatement (ln : String) (value : Option Value)
  | breakStatement (ln : String)
  | throwStatement (ln : String) (entity : Option Value)
  | mutationBlock (ln : String) (base : Value) (fragment : Value)
      (chained : List Value)
  | indentedChain (ln : String) (chained : List Value)
  | argumentsCont (ln : String) (args : List Value)
  | imports (ln : String) (moduleAlias : String) (rawPath : String)

/-- The source line number of a statement — the address of the IR line it
appends (Method.py: addresses are stringified source line numbers). -/
def stmtLine : Statement → String
  | .assignment ln _ _ => ln
  | .serviceBlock ln _ _ _ _ _ => ln
  | .callExpression ln _ _ => ln
  | .ifBlock ln _ _ _ _ => ln
  | .elseifBlock ln _ _ => ln
  | .elseBlock ln _ => ln
  | .foreachBlock ln _ _ _ => ln
  | .whileBlock ln _ _ => ln
  | .functionBlock ln _ _ _ _ => ln
  | .tryBlock ln _ _ _ => ln
  | .catchBlock ln _ _ => ln
  | .finallyBlock ln _ => ln
  | .returnStatement ln _ => ln
  | .breakStatement ln => ln
  | .throwStatement ln _ => ln
  | .mutationBlock ln _ _ _ => ln
  | .indentedChain ln _ => ln
  | .argumentsCont ln _ => ln
  | .imports ln _ _ => ln

/-- The address of a nested block's first line (`tree.nested_block.line()`):
the line number of the block's first statement. -/
def firstLineOf (body : List Statement) : Option String :=
  body.head?.map stmtLine

namespace Compiler

/-- Modelled from the spec: the `arguments` continuation handler (§4.3) —
the previous line must exist and be an `execute` line
(`arguments_noservice` otherwise); the normalized arguments are appended
onto that line's existing `args` without a new address
(tests `test_compiler_arguments*`). -/
def argumentsH (newArgs : List Value) (L : Lines) : Except CompileError Lines :=
  match L.last with
  | none => .error { code := "arguments_noservice" }
  | some a =>
    match L.get a with
    | some l =>
      if l.method == "execute" then
        .ok (L.updateLine a
          (fun x => { x with args := some (x.args.getD [] ++ newArgs) }))
      else .error { code := "arguments_noservice" }
    | none => .error { code := "arguments_noservice" }

/-- Modelled from the spec: the `indented_chain` handler (§4.3) — the
previous line must exist and be a `mutation` line (`arguments_nomutation`
otherwise); the chained mutation fragments are appended onto that line's
existing `args` (tests `test_compiler_indented_chain*`). -/
def indented_chainH (chained : List Value) (L : Lines) :
    Except CompileError Lines :=
  match L.last with
  | none => .error { code := "arguments_nomutation" }
  | some a =>
    match L.get a with
    | some l =>
      if l.method == "mutation" then
        .ok (L.updateLine a
          (fun x => { x with args := some (x.args.getD [] ++ chained) }))
      else .error { code := "arguments_nomutation" }
    | none => .error { code := "arguments_nomutation" }

/-- Modelled from the spec: `mutation_block` (§4.3) — the base entity, the
first mutation fragment and any further chained fragments make one flat
`args` list on a single `mutation` line
(tests `test_compiler_mutation_block*`). -/
def mutation_blockH (ln : String) (base fragment : Value)
    (chained : List Value) (parent : Option String) (L : Lines) : Lines :=
  L.appendLine "mutation" ln (some (base :: fragment :: chained)) none none
    parent none none none

/-- Modelled from the spec: the `service` handler (§4.3) — an invocation
whose bare path is a variable already in scope is redirected to mutation
handling (test `test_compiler_service_expressions`); otherwise an
`execute` line is emitted via the Line Store, with a nested block's entry
address feeding `enter` (tests `test_compiler_service*`). -/
def serviceH (ln : String) (path : List String) (command : Option String)
    (args : List Value) (output : List String) (enter : Option String)
    (parent : Option String) (L : Lines) : Lines :=
  if L.is_variable_defined (path.headD "") then
    mutation_blockH ln (Value.path path)
      (Value.mutationV (command.getD "") args) [] parent L
  else
    L.execute ln (String.intercalate "." path) command args output enter parent

/-- Modelled from the spec: `call_expression` (§4.3) — the path must not
contain dotted segments other than a single module-qualifier
(`function_call_invalid_path` otherwise, carrying the dot-joined
segments); the referenced function must be declared or its first segment
must name an imported module (`function_call_no_function` otherwise,
carrying the full dotted name); then a `call` line is emitted
(tests `test_compiler_call_expression*`). -/
def call_expressionH (ln : String) (names : List String) (args : List Value)
    (parent : Option String) (L : Lines) : Except CompileError Lines :=
  if names.length == 1
      || (names.length == 2
          && (lookupStr L.modules (names.headD "")).isSome) then
    if (lookupStr L.functions (String.intercalate "." names)).isSome
        || (lookupStr L.modules (names.headD "")).isSome then
      .ok (L.appendLine "call" ln (some args) none none parent
        (some (String.intercalate "." names)) none none)
    else
      .error { code := "function_call_no_function",
               name := some (String.intercalate "." names) }
  else
    .error { code := "function_call_invalid_path",
             name := some (String.intercalate "." names) }

/-- Modelled from the spec: the `assignment` handler (§4.3) — resolve the
right-hand side (unary literal/path → `set`, via an `expression` line
whose method is rewritten, test `test_compiler_assignment_unary`; a
service invocation on a bare path already in scope → a `set` of the
variable path, §8 scenario; otherwise service/mutation/call delegation);
the left-hand path is always bound via `set_name`. -/
def assignmentH (ln : String) (names : List String) (rhs : Assigned)
    (parent : Option String) (L : Lines) : Except CompileError Lines :=
  match rhs with
  | .unary v =>
    let L1 := L.appendLine "expression" ln (some [v]) none none parent none
      none none
    .ok ((L1.setLastMethod "set").set_name names)
  | .expr e =>
    let L1 := L.appendLine "expression" ln (some [e]) none none parent none
      none none
    .ok (L1.set_name names)
  | .service path command args =>
    if L.is_variable_defined (path.headD "") then
      let L1 := L.appendLine "set" ln (some [Value.path path]) none none
        parent none none none
      .ok (L1.set_name names)
    else
      .ok ((serviceH ln path command args [] none parent L).set_name names)
  | .mutationA base fragment chained =>
    .ok ((mutation_blockH ln base fragment chained parent L).set_name names)
  | .callA cnames cargs => do
    let L1 ← call_expressionH ln cnames cargs parent L
    .ok (L1.set_name names)

/-- Modelled from the spec: `return_statement` (§4.3) — valid only inside a
function body (`return_outside` when `parent` is `None`); emits one
`return` line with the optional compiled value
(tests `test_compiler_return_statement*`). -/
def return_statementH (ln : String) (value : Option Value)
    (parent : Option String) (L : Lines) : Except CompileError Lines :=
  match parent with
  | none => .error { code := "return_outside" }
  | some p =>
    .ok (L.appendLine "return" ln (value.map (fun v => [v])) none none
      (some p) none none none)

/-- Modelled from the spec: `break_statement` (§4.3) — valid only inside a
loop body (`break_outside` when `parent` is `None`)
(tests `test_compiler_break_statement*`). -/
def break_statementH (ln : String) (parent : Option String) (L : Lines) :
    Except CompileError Lines :=
  match parent with
  | none => .error { code := "break_outside" }
  | some p =>
    .ok (L.appendLine "break" ln none none none (some p) none none none)

/-- Modelled from the spec: `throw_statement` (§4.3) — emits `throw` with
zero or one compiled entity argument
(tests `test_compiler_throw_statement*`). -/
def throw_statementH (ln : String) (entity : Option Value)
    (parent : Option String) (L : Lines) : Lines :=
  L.appendLine "throw" ln (some (match entity with | none => [] | some v => [v]))
    none none parent none none none

/-- Modelled from the spec: `imports` (§4.3) — registers the alias → quoted
module path mapping (test `test_compiler_imports`). -/
def importsH (moduleAlias rawPath : String) (L : Lines) : Lines :=
  { L with modules := L.modules ++ [(moduleAlias, stripQuotes rawPath)] }

mutual

/-- Modelled from the spec: the tree dispatcher (§4.3) — one handler per
statement kind; every block-opening handler opens its scope, appends the
header line whose `enter` is the nested block's first line address, then
recurses into the nested block with its own address as `parent` (§4.3
general rule); sibling branches (elseif/else, catch/finally) are compiled
with the original parent and chained via `set_exit`. -/
def subtree : Statement → Option String → Lines → Except CompileError Lines
  | .assignment ln names rhs, parent, L => assignmentH ln names rhs parent L
  | .serviceBlock ln path command args output body, parent, L => do
    let L1 := serviceH ln path command args output (firstLineOf body) parent L
    parse_tree body (some ln) L1
  | .callExpression ln names args, parent, L =>
    call_expressionH ln names args parent L
  | .ifBlock ln cond body elseifs elsePart, parent, L => do
    let L1 := (L.set_scope ln parent []).finish_scope ln
    let L2 := L1.appendLine "if" ln (some [cond]) none (firstLineOf body)
      parent none none none
    let L3 ← parse_tree body (some ln) L2
    let L4 ← parse_tree elseifs parent L3
    match elsePart with
    | some e => subtree e parent L4
    | none => .ok L4
  | .elseifBlock ln cond body, parent, L => do
    let L1 := ((L.set_exit ln).set_scope ln parent []).finish_scope ln
    let L2 := L1.appendLine "elif" ln (some [cond]) none (firstLineOf body)
      parent none none none
    parse_tree body (some ln) L2
  | .elseBlock ln body, parent, L => do
    let L1 := ((L.set_exit ln).set_scope ln parent []).finish_scope ln
    let L2 := L1.appendLine "else" ln none none (firstLineOf body) parent
      none none none
    parse_tree body (some ln) L2
  | .foreachBlock ln entity output body, parent, L => do
    let L1 := (L.set_scope ln parent output).finish_scope ln
    let L2 := L1.appendLine "for" ln (some [entity]) (some output)
      (firstLineOf body) parent none none none
    parse_tree body (some ln) L2
  | .whileBlock ln cond body, parent, L => do
    let L1 := (L.set_scope ln parent []).finish_scope ln
    let L2 := L1.appendLine "while" ln (some [cond]) none (firstLineOf body)
      parent none none none
    parse_tree body (some ln) L2
  | .functionBlock ln fname fargs fout body, parent, L =>
    match lookupStr L.functions fname with
    | some addr =>
      .error { code := "function_already_declared",
               function_name := some fname, line := some addr }
    | none => do
      let L1 := { L with functions := L.functions ++ [(fname, ln)] }
      let L2 := L1.appendLine "function" ln (some fargs) (some fout)
        (firstLineOf body) parent none none (some fname)
      parse_tree body (some ln) L2
  | .tryBlock ln body catchPart finallyPart, parent, L => do
    let L1 := (L.set_scope ln parent []).finish_scope ln
    let L2 := L1.appendLine "try" ln none none (firstLineOf body) parent
      none none none
    let L3 ← parse_tree body (some ln) L2
    let L4 ← (match catchPart with
      | some c => subtree c parent L3
      | none => .ok L3)
    match finallyPart with
    | some f => subtree f parent L4
    | none => .ok L4
  | .catchBlock ln cnames body, parent, L => do
    let L1 := ((L.set_exit ln).set_scope ln parent cnames).finish_scope ln
    let L2 := L1.appendLine "catch" ln none (some cnames) (firstLineOf body)
      parent none none none
    parse_tree body (some ln) L2
  | .finallyBlock ln body, parent, L => do
    let L1 := ((L.set_exit ln).set_scope ln parent []).finish_scope ln
    let L2 := L1.appendLine "finally" ln none none (firstLineOf body) parent
      none none none
    parse_tree body (some ln) L2
  | .returnStatement ln value, parent, L => return_statementH ln value parent L
  | .breakStatement ln, parent, L => break_statementH ln parent L
  | .throwStatement ln entity, parent, L =>
    .ok (throw_statementH ln entity parent L)
  | .mutationBlock ln base fragment chained, parent, L =>
    .ok (mutation_blockH ln base fragment chained parent L)
  | .indentedChain _ chained, _, L => indented_chainH chained L
  | .argumentsCont _ args, _, L => argumentsH args L
  | .imports _ moduleAlias rawPath, _, L => .ok (importsH moduleAlias rawPath L)

/-- Modelled from the spec: `parse_tree` — walk an ordered sequence of
statements, dispatching each through `subtree` with the given parent
(§4.3). -/
def parse_tree : List Statement → Option String → Lines →
    Except CompileError Lines
  | [], _, L => .ok L
  | s :: rest, parent, L => do
    let L1 ← subtree s parent L
    parse_tree rest parent L1

end

end Compiler

/-- Statement kinds that append an IR line at their own address when
dispatched: everything except `imports` (registry only) and the two
continuation constructs (which amend the previous line). -/
def appendsOwnLine : Statement → Bool
  | .imports _ _ _ => false
  | .argumentsCont _ _ => false
  | .indentedChain _ _ => false
  | _ => true

/-- Whether a statement is an `imports` statement. -/
def isImportsStmt : Statement → Bool
  | .imports _ _ _ => true
  | _ => false

/-- The header address and immediate nested body of a block statement. -/
def blockHead : Statement → Option (String × List Statement)
  | .ifBlock ln _ body _ _ => some (ln, body)
  | .elseifBlock ln _ body => some (ln, body)
  | .elseBlock ln body => some (ln, body)
  | .foreachBlock ln _ _ body => some (ln, body)
  | .whileBlock ln _ body => some (ln, body)
  | .functionBlock ln _ _ _ body => some (ln, body)
  | .tryBlock ln body _ _ => some (ln, body)
  | .catchBlock ln _ body => some (ln, body)
  | .finallyBlock ln body => some (ln, body)
  | _ => none

/-- `B` preserves the `parent`/`enter` view of every line of `A`. -/
def peMono (A B : Lines) : Prop :=
  ∀ a l, A.get a = some l →
    ∃ l', B.get a = some l' ∧ l'.parent = l.parent ∧ l'.enter = l.enter


/-- Concrete store with a single `execute` line, for exercising the
continuation handlers. -/
def c2ExecLine : Line :=
  { method := "execute", ln := "1", args := some [Value.number 1] }

/-- Store holding only `c2ExecLine` as its most recent line. -/
def c2Exec : Lines :=
  { lines := [("1", c2ExecLine)], lastLine := some "1" }

/-- Concrete store with a single `mutation` line. -/
def c2MutLine : Line :=
  { method := "mutation", ln := "1", args := some [Value.number 1] }

/-- Store holding only `c2MutLine` as its most recent line. -/
def c2Mut : Lines :=
  { lines := [("1", c2MutLine)], lastLine := some "1" }

/-- The store produced by compiling `if true: break` (lines 1-2) from the
empty store. -/
def c1WitnessStore : Lines :=
  { lines := [("1", { method := "if", ln := "1",
                      args := some [Value.boolean true],
                      enter := some "2" }),
              ("2", { method := "break", ln := "2", parent := some "1" })],
    lastLine := some "2" }

/-! ## Store lemmas

Lookup behaviour of the Line Store operations: appends never shadow an
existing address (the spec guarantees addresses are unique, §3), in-place
amendments (`updateLine`, `set_exit`, `setLastMethod`) never change a
line's `parent` or `enter` fields, and the compiler as a whole therefore
preserves the `parent`/`enter` view of every line already stored. -/

theorem lookupStr_append_of_some {α : Type} {xs : List (String × α)}
    (ys : List (String × α)) {k : String} {v : α}
    (h : lookupStr xs k = some v) : lookupStr (xs ++ ys) k = some v := by
  induction xs with
  | nil => simp [lookupStr] at h
  | cons c rest ih =>
    obtain ⟨a, w⟩ := c
    by_cases hc : a = k
    · simp only [lookupStr, hc, beq_self_eq_true, if_true] at h
      simp [lookupStr, hc, h]
    · simp only [lookupStr, hc, beq_iff_eq, if_false] at h
      simpa [lookupStr, hc] using ih h

theorem lookupStr_append_of_none {α : Type} {xs : List (String × α)}
    (ys : List (String × α)) {k : String}
    (h : lookupStr xs k = none) :
    lookupStr (xs ++ ys) k = lookupStr ys k := by
  induction xs with
  | nil => simp
  | cons c rest ih =>
    obtain ⟨a, w⟩ := c
    by_cases hc : a = k
    · simp [lookupStr, hc] at h
    · simp only [lookupStr, hc, if_neg, beq_iff_eq, if_false] at h
      simpa [lookupStr, hc] using ih h

theorem get_appendLine_of_some {L : Lines} {b : String} {l : Line}
    (h : L.get b = some l) (m ln : String) (args : Option (List Value))
    (output : Option (List String)) (enter parent svc cmd fn : Option String) :
    (L.appendLine m ln args output enter parent svc cmd fn).get b = some l :=
  lookupStr_append_of_some _ h

theorem get_appendLine_self {L : Lines} {a : String} (h : L.get a = none)
    (m : String) (args : Option (List Value)) (output : Option (List String))
    (enter parent svc cmd fn : Option String) :
    (L.appendLine m a args output enter parent svc cmd fn).get a =
      some { method := m, ln := a, args := args, output := output,
             enter := enter, exit := none, parent := parent,
             service := svc, command := cmd, function := fn } := by
  show lookupStr (L.lines ++ [_]) a = _
  rw [lookupStr_append_of_none _ h]
  simp [lookupStr]

theorem get_appendLine_of_ne {L : Lines} {a b : String} (hne : b ≠ a)
    (m : String) (args : Option (List Value)) (output : Option (List String))
    (enter parent svc cmd fn : Option String) :
    (L.appendLine m a args output enter parent svc cmd fn).get b = L.get b := by
  show lookupStr (L.lines ++ [_]) b = _
  cases hf : L.get b with
  | none =>
    rw [lookupStr_append_of_none _ hf]
    have hab : ¬ a = b := fun h => hne h.symm
    simp [lookupStr, hab, Lines.get] at hf ⊢
  | some l => exact lookupStr_append_of_some _ hf

theorem lookupStr_map_update (xs : List (String × Line)) (a b : String)
    (f : Line → Line) :
    lookupStr (xs.map (fun p => (p.1, if p.1 == a then f p.2 else p.2))) b =
      if b = a then (lookupStr xs b).map f else lookupStr xs b := by
  induction xs with
  | nil => simp [lookupStr]
  | cons c rest ih =>
    obtain ⟨c1, c2⟩ := c
    by_cases hca : c1 = a
    · subst hca
      by_cases hcb : c1 = b
      · subst hcb
        simp [lookupStr]
      · have hba : ¬ b = c1 := fun h => hcb h.symm
        simp [lookupStr, hcb, hba]
        simpa [hba] using ih
    · by_cases hcb : c1 = b
      · subst hcb
        have hba : ¬ c1 = a := hca
        simp [lookupStr, hca, hba, ih]
      · simp [lookupStr, hca, hcb]
        simpa using ih

theorem get_updateLine (L : Lines) (a b : String) (f : Line → Line) :
    (L.updateLine a f).get b =
      if b = a then (L.get b).map f else L.get b :=
  lookupStr_map_update L.lines a b f

theorem peMono_refl (A : Lines) : peMono A A :=
  fun _ l h => ⟨l, h, rfl, rfl⟩

theorem peMono_trans {A B C : Lines} (h1 : peMono A B) (h2 : peMono B C) :
    peMono A C := by
  intro a l h
  obtain ⟨l1, hb, hp1, he1⟩ := h1 a l h
  obtain ⟨l2, hc, hp2, he2⟩ := h2 a l1 hb
  exact ⟨l2, hc, hp2.trans hp1, he2.trans he1⟩

theorem peMono_of_lines_eq {A B : Lines} (h : A.lines = B.lines) :
    peMono A B := by
  intro a l hl
  refine ⟨l, ?_, rfl, rfl⟩
  show lookupStr B.lines a = some l
  rw [← h]
  exact hl

theorem peMono_appendLine (L : Lines) (m ln : String)
    (args : Option (List Value)) (output : Option (List String))
    (enter parent svc cmd fn : Option String) :
    peMono L (L.appendLine m ln args output enter parent svc cmd fn) :=
  fun _ l h => ⟨l, get_appendLine_of_some h m ln args output enter parent
    svc cmd fn, rfl, rfl⟩

theorem peMono_updateLine (L : Lines) (a : String) (f : Line → Line)
    (hp : ∀ l, (f l).parent = l.parent) (he : ∀ l, (f l).enter = l.enter) :
    peMono L (L.updateLine a f) := by
  intro b l h
  rw [get_updateLine]
  by_cases hba : b = a
  · exact ⟨f l, by rw [if_pos hba, h]; rfl, hp l, he l⟩
  · exact ⟨l, by rw [if_neg hba]; exact h, rfl, rfl⟩

theorem peMono_setLastMethod (L : Lines) (m : String) :
    peMono L (L.setLastMethod m) := by
  unfold Lines.setLastMethod
  cases L.lastLine with
  | none => exact peMono_refl L
  | some a => exact peMono_updateLine L a _ (fun _ => rfl) (fun _ => rfl)

theorem lookupStr_setExitGo (xs : List (String × Line)) (x b : String) :
    lookupStr (setExitGo xs x) b =
      (lookupStr xs b).map (fun l => { l with exit := some x }) ∨
    lookupStr (setExitGo xs x) b = lookupStr xs b := by
  induction xs with
  | nil => right; rfl
  | cons c rest ih =>
    obtain ⟨c1, c2⟩ := c
    unfold setExitGo
    by_cases h1 : rest.any (fun p => isBranchHeader p.2.method)
    · rw [if_pos h1]
      by_cases hcb : c1 == b
      · right; simp [lookupStr, hcb]
      · simpa [lookupStr, hcb] using ih
    · rw [if_neg h1]
      by_cases h2 : isBranchHeader c2.method
      · rw [if_pos h2]
        by_cases hcb : c1 == b
        · left; simp [lookupStr, hcb]
        · right; simp [lookupStr, hcb]
      · rw [if_neg h2]
        right; rfl

theorem peMono_set_exit (L : Lines) (x : String) :
    peMono L (L.set_exit x) := by
  intro b l h
  show ∃ l', lookupStr (setExitGo L.lines x) b = some l' ∧ _ ∧ _
  rcases lookupStr_setExitGo L.lines x b with hc | hc
  · refine ⟨{ l with exit := some x }, ?_, rfl, rfl⟩
    rw [hc]
    show (Lines.get L b).map _ = _
    rw [h]
    rfl
  · refine ⟨l, ?_, rfl, rfl⟩
    rw [hc]
    exact h

theorem set_exit_get_none {L : Lines} {b : String} (h : L.get b = none)
    (x : String) : (L.set_exit x).get b = none := by
  show lookupStr (setExitGo L.lines x) b = none
  rcases lookupStr_setExitGo L.lines x b with hc | hc <;> rw [hc]
  · show (Lines.get L b).map _ = _
    rw [h]
    rfl
  · exact h

theorem except_bind_ok {ε α β : Type} {x : Except ε α} {f : α → Except ε β}
    {b : β} (h : (x >>= f) = .ok b) : ∃ a, x = .ok a ∧ f a = .ok b := by
  cases x with
  | error e => simp [Bind.bind, Except.bind] at h
  | ok a => exact ⟨a, rfl, by simpa [Bind.bind, Except.bind] using h⟩

/-! ## The compiler preserves the `parent`/`enter` view of stored lines -/

theorem peMono_set_name (L : Lines) (ns : List String) :
    peMono L (L.set_name ns) :=
  peMono_of_lines_eq rfl

theorem peMono_set_scope (L : Lines) (a : String) (p : Option String)
    (o : List String) : peMono L (L.set_scope a p o) :=
  peMono_of_lines_eq rfl

theorem peMono_execute (L : Lines) (ln svc : String) (cmd : Option String)
    (arguments : List Value) (output : List String)
    (enter parent : Option String) :
    peMono L (L.execute ln svc cmd arguments output enter parent) :=
  peMono_trans
    (peMono_appendLine L "execute" ln (some arguments) (some output) enter
      parent (some svc) cmd none)
    (peMono_of_lines_eq rfl)

theorem peMono_mutation_blockH (ln : String) (base fragment : Value)
    (chained : List Value) (parent : Option String) (L : Lines) :
    peMono L (Compiler.mutation_blockH ln base fragment chained parent L) :=
  peMono_appendLine L "mutation" ln (some (base :: fragment :: chained)) none
    none parent none none none

theorem peMono_serviceH (ln : String) (path : List String)
    (command : Option String) (args : List Value) (output : List String)
    (enter parent : Option String) (L : Lines) :
    peMono L (Compiler.serviceH ln path command args output enter parent L) := by
  unfold Compiler.serviceH
  by_cases h : L.is_variable_defined (path.headD "")
  · rw [if_pos h]
    exact peMono_mutation_blockH _ _ _ _ _ _
  · rw [if_neg h]
    exact peMono_execute _ _ _ _ _ _ _ _

theorem peMono_argumentsH {xs : List Value} {L L' : Lines}
    (h : Compiler.argumentsH xs L = .ok L') : peMono L L' := by
  unfold Compiler.argumentsH at h
  split at h
  · exact absurd h (by simp)
  · split at h
    · split at h
      · injection h with h
        subst h
        exact peMono_updateLine _ _ _ (fun _ => rfl) (fun _ => rfl)
      · exact absurd h (by simp)
    · exact absurd h (by simp)

theorem peMono_indented_chainH {xs : List Value} {L L' : Lines}
    (h : Compiler.indented_chainH xs L = .ok L') : peMono L L' := by
  unfold Compiler.indented_chainH at h
  split at h
  · exact absurd h (by simp)
  · split at h
    · split at h
      · injection h with h
        subst h
        exact peMono_updateLine _ _ _ (fun _ => rfl) (fun _ => rfl)
      · exact absurd h (by simp)
    · exact absurd h (by simp)

theorem peMono_call_expressionH {ln : String} {names : List String}
    {args : List Value} {parent : Option String} {L L' : Lines}
    (h : Compiler.call_expressionH ln names args parent L = .ok L') :
    peMono L L' := by
  unfold Compiler.call_expressionH at h
  split at h
  · split at h
    · injection h with h
      subst h
      exact peMono_appendLine _ _ _ _ _ _ _ _ _ _
    · exact absurd h (by simp)
  · exact absurd h (by simp)

theorem peMono_assignmentH {ln : String} {names : List String}
    {rhs : Assigned} {parent : Option String} {L L' : Lines}
    (h : Compiler.assignmentH ln names rhs parent L = .ok L') :
    peMono L L' := by
  cases rhs with
  | unary v =>
    simp only [Compiler.assignmentH] at h
    injection h with h
    subst h
    exact peMono_trans (peMono_appendLine _ _ _ _ _ _ _ _ _ _)
      (peMono_trans (peMono_setLastMethod _ _) (peMono_set_name _ _))
  | expr e =>
    simp only [Compiler.assignmentH] at h
    injection h with h
    subst h
    exact peMono_trans (peMono_appendLine _ _ _ _ _ _ _ _ _ _)
      (peMono_set_name _ _)
  | service path command args =>
    simp only [Compiler.assignmentH] at h
    split at h
    · injection h with h
      subst h
      exact peMono_trans (peMono_appendLine _ _ _ _ _ _ _ _ _ _)
        (peMono_set_name _ _)
    · injection h with h
      subst h
      exact peMono_trans (peMono_serviceH _ _ _ _ _ _ _ _)
        (peMono_set_name _ _)
  | mutationA base fragment chained =>
    simp only [Compiler.assignmentH] at h
    injection h with h
    subst h
    exact peMono_trans (peMono_mutation_blockH _ _ _ _ _ _)
      (peMono_set_name _ _)
  | callA cnames cargs =>
    simp only [Compiler.assignmentH] at h
    obtain ⟨L1, h1, h2⟩ := except_bind_ok h
    injection h2 with h2
    subst h2
    exact peMono_trans (peMono_call_expressionH h1) (peMono_set_name _ _)

theorem peMono_return_statementH {ln : String} {value : Option Value}
    {parent : Option String} {L L' : Lines}
    (h : Compiler.return_statementH ln value parent L = .ok L') :
    peMono L L' := by
  unfold Compiler.return_statementH at h
  split at h
  · exact absurd h (by simp)
  · injection h with h
    subst h
    exact peMono_appendLine _ _ _ _ _ _ _ _ _ _

theorem peMono_break_statementH {ln : String} {parent : Option String}
    {L L' : Lines} (h : Compiler.break_statementH ln parent L = .ok L') :
    peMono L L' := by
  unfold Compiler.break_statementH at h
  split at h
  · exact absurd h (by simp)
  · injection h with h
    subst h
    exact peMono_appendLine _ _ _ _ _ _ _ _ _ _

theorem peMono_throw_statementH (ln : String) (entity : Option Value)
    (parent : Option String) (L : Lines) :
    peMono L (Compiler.throw_statementH ln entity parent L) :=
  peMono_appendLine _ _ _ _ _ _ _ _ _ _

theorem peMono_importsH (moduleAlias rawPath : String) (L : Lines) :
    peMono L (Compiler.importsH moduleAlias rawPath L) :=
  peMono_of_lines_eq rfl

/-- A store whose line table is the old table plus one appended entry
preserves the `parent`/`enter` view (whatever happened to the other
bookkeeping fields). -/
theorem peMono_lines_append (L B : Lines) (e : String × Line)
    (h : B.lines = L.lines ++ [e]) : peMono L B := by
  intro a l hl
  refine ⟨l, ?_, rfl, rfl⟩
  show lookupStr B.lines a = some l
  rw [h]
  exact lookupStr_append_of_some _ hl

/-- Joint strong induction: a successful `subtree`/`parse_tree` run
preserves the `parent`/`enter` view of every line already stored. -/
theorem peAll : ∀ n : Nat,
    (∀ s : Statement, sizeOf s ≤ n → ∀ p L L',
      Compiler.subtree s p L = .ok L' → peMono L L') ∧
    (∀ ss : List Statement, sizeOf ss ≤ n → ∀ p L L',
      Compiler.parse_tree ss p L = .ok L' → peMono L L') := by
  intro n
  induction n using Nat.strong_induction_on with
  | _ n ih =>
    constructor
    · intro s hs p L L' h
      cases s with
      | assignment ln names rhs =>
        simp only [Compiler.subtree] at h
        exact peMono_assignmentH h
      | serviceBlock ln path command args output body =>
        simp only [Compiler.subtree] at h
        have hb : sizeOf body < n := lt_of_lt_of_le (by simp_arith <;> omega) hs
        exact peMono_trans (peMono_serviceH _ _ _ _ _ _ _ _)
          ((ih _ hb).2 body le_rfl _ _ _ h)
      | callExpression ln names args =>
        simp only [Compiler.subtree] at h
        exact peMono_call_expressionH h
      | ifBlock ln cond body elseifs elsePart =>
        simp only [Compiler.subtree] at h
        obtain ⟨L3, h3, h45⟩ := except_bind_ok h
        obtain ⟨L4, h4, h5⟩ := except_bind_ok h45
        have hb : sizeOf body < n := lt_of_lt_of_le (by simp_arith <;> omega) hs
        have hei : sizeOf elseifs < n := lt_of_lt_of_le (by simp_arith <;> omega) hs
        have pe1 : peMono L L3 :=
          peMono_trans (peMono_lines_append L _ _ rfl)
            ((ih _ hb).2 body le_rfl _ _ _ h3)
        have pe2 : peMono L3 L4 := (ih _ hei).2 elseifs le_rfl _ _ _ h4
        cases elsePart with
        | none =>
          injection h5 with h5
          subst h5
          exact peMono_trans pe1 pe2
        | some e =>
          have he : sizeOf e < n := lt_of_lt_of_le (by simp_arith <;> omega) hs
          exact peMono_trans (peMono_trans pe1 pe2)
            ((ih _ he).1 e le_rfl _ _ _ h5)
      | elseifBlock ln cond body =>
        simp only [Compiler.subtree] at h
        have hb : sizeOf body < n := lt_of_lt_of_le (by simp_arith <;> omega) hs
        exact peMono_trans
          (peMono_trans (peMono_set_exit L ln)
            (peMono_lines_append (L.set_exit ln) _ _ rfl))
          ((ih _ hb).2 body le_rfl _ _ _ h)
      | elseBlock ln body =>
        simp only [Compiler.subtree] at h
        have hb : sizeOf body < n := lt_of_lt_of_le (by simp_arith <;> omega) hs
        exact peMono_trans
          (peMono_trans (peMono_set_exit L ln)
            (peMono_lines_append (L.set_exit ln) _ _ rfl))
          ((ih _ hb).2 body le_rfl _ _ _ h)
      | foreachBlock ln entity output body =>
        simp only [Compiler.subtree] at h
        have hb : sizeOf body < n := lt_of_lt_of_le (by simp_arith <;> omega) hs
        exact peMono_trans (peMono_lines_append L _ _ rfl)
          ((ih _ hb).2 body le_rfl _ _ _ h)
      | whileBlock ln cond body =>
        simp only [Compiler.subtree] at h
        have hb : sizeOf body < n := lt_of_lt_of_le (by simp_arith <;> omega) hs
        exact peMono_trans (peMono_lines_append L _ _ rfl)
          ((ih _ hb).2 body le_rfl _ _ _ h)
      | functionBlock ln fname fargs fout body =>
        simp only [Compiler.subtree] at h
        split at h
        · exact absurd h (by simp)
        · have hb : sizeOf body < n := lt_of_lt_of_le (by simp_arith <;> omega) hs
          exact peMono_trans (peMono_lines_append L _ _ rfl)
            ((ih _ hb).2 body le_rfl _ _ _ h)
      | tryBlock ln body catchPart finallyPart =>
        simp only [Compiler.subtree] at h
        obtain ⟨L3, h3, h45⟩ := except_bind_ok h
        obtain ⟨L4, h4, h5⟩ := except_bind_ok h45
        have hb : sizeOf body < n := lt_of_lt_of_le (by simp_arith <;> omega) hs
        have pe1 : peMono L L3 :=
          peMono_trans (peMono_lines_append L _ _ rfl)
            ((ih _ hb).2 body le_rfl _ _ _ h3)
        have pe2 : peMono L3 L4 := by
          cases catchPart with
          | none =>
            injection h4 with h4
            subst h4
            exact peMono_refl _
          | some c =>
            have hc : sizeOf c < n := lt_of_lt_of_le (by simp_arith <;> omega) hs
            exact (ih _ hc).1 c le_rfl _ _ _ h4
        have pe3 : peMono L4 L' := by
          cases finallyPart with
          | none =>
            injection h5 with h5
            subst h5
            exact peMono_refl _
          | some f =>
            have hf : sizeOf f < n := lt_of_lt_of_le (by simp_arith <;> omega) hs
            exact (ih _ hf).1 f le_rfl _ _ _ h5
        exact peMono_trans (peMono_trans pe1 pe2) pe3
      | catchBlock ln cnames body =>
        simp only [Compiler.subtree] at h
        have hb : sizeOf body < n := lt_of_lt_of_le (by simp_arith <;> omega) hs
        exact peMono_trans
          (peMono_trans (peMono_set_exit L ln)
            (peMono_lines_append (L.set_exit ln) _ _ rfl))
          ((ih _ hb).2 body le_rfl _ _ _ h)
      | finallyBlock ln body =>
        simp only [Compiler.subtree] at h
        have hb : sizeOf body < n := lt_of_lt_of_le (by simp_arith <;> omega) hs
        exact peMono_trans
          (peMono_trans (peMono_set_exit L ln)
            (peMono_lines_append (L.set_exit ln) _ _ rfl))
          ((ih _ hb).2 body le_rfl _ _ _ h)
      | returnStatement ln value =>
        simp only [Compiler.subtree] at h
        exact peMono_return_statementH h
      | breakStatement ln =>
        simp only [Compiler.subtree] at h
        exact peMono_break_statementH h
      | throwStatement ln entity =>
        simp only [Compiler.subtree] at h
        injection h with h
        subst h
        exact peMono_throw_statementH _ _ _ _
      | mutationBlock ln base fragment chained =>
        simp only [Compiler.subtree] at h
        injection h with h
        subst h
        exact peMono_mutation_blockH _ _ _ _ _ _
      | indentedChain ln chained =>
        simp only [Compiler.subtree] at h
        exact peMono_indented_chainH h
      | argumentsCont ln args =>
        simp only [Compiler.subtree] at h
        exact peMono_argumentsH h
      | imports ln moduleAlias rawPath =>
        simp only [Compiler.subtree] at h
        injection h with h
        subst h
        exact peMono_importsH _ _ _
    · intro ss hss p L L' h
      cases ss with
      | nil =>
        simp only [Compiler.parse_tree] at h
        injection h with h
        subst h
        exact peMono_refl _
      | cons s rest =>
        simp only [Compiler.parse_tree] at h
        obtain ⟨L1, h1, h2⟩ := except_bind_ok h
        have hs1 : sizeOf s < n := lt_of_lt_of_le (by simp_arith <;> omega) hss
        have hr : sizeOf rest < n := lt_of_lt_of_le (by simp_arith <;> omega) hss
        exact peMono_trans ((ih _ hs1).1 s le_rfl _ _ _ h1)
          ((ih _ hr).2 rest le_rfl _ _ _ h2)


theorem pe_after {A B : Lines} {a : String} {l : Line} {p : Option String}
    (pe : peMono A B) (hg : A.get a = some l) (hp : l.parent = p) :
    ∃ l', B.get a = some l' ∧ l'.parent = p := by
  obtain ⟨l', h1, h2, _⟩ := pe a l hg
  exact ⟨l', h1, h2.trans hp⟩

/-- A dispatched statement that appends its own line places it at its own
address with the given parent, and that line (with that `parent`) is still
visible in the final store. -/
theorem subtree_first_line {s : Statement} {p : Option String} {L L' : Lines}
    (h : Compiler.subtree s p L = .ok L')
    (ha : appendsOwnLine s = true)
    (hfresh : L.get (stmtLine s) = none) :
    ∃ l, L'.get (stmtLine s) = some l ∧ l.parent = p := by
  cases s with
  | assignment ln names rhs =>
    simp only [Compiler.subtree] at h
    cases rhs with
    | unary v =>
      simp only [Compiler.assignmentH] at h
      injection h with h
      subst h
      exact pe_after
        (peMono_trans (peMono_setLastMethod _ _) (peMono_set_name _ _))
        (get_appendLine_self hfresh "expression" (some [v]) none none p none
          none none) rfl
    | expr e =>
      simp only [Compiler.assignmentH] at h
      injection h with h
      subst h
      exact pe_after (peMono_set_name _ _)
        (get_appendLine_self hfresh "expression" (some [e]) none none p none
          none none) rfl
    | service path command args =>
      simp only [Compiler.assignmentH] at h
      split at h
      · injection h with h
        subst h
        exact pe_after (peMono_set_name _ _)
          (get_appendLine_self hfresh "set" (some [Value.path path]) none none
            p none none none) rfl
      · injection h with h
        subst h
        unfold Compiler.serviceH
        split
        · unfold Compiler.mutation_blockH
          exact pe_after (peMono_set_name _ _)
            (get_appendLine_self hfresh "mutation"
              (some (Value.path path :: Value.mutationV (command.getD "") args
                :: [])) none none p none none none) rfl
        · exact pe_after
            (peMono_trans (peMono_of_lines_eq rfl) (peMono_set_name _ _))
            (get_appendLine_self hfresh "execute" (some args) (some [])
              none p (some (String.intercalate "." path)) command none) rfl
    | mutationA base fragment chained =>
      simp only [Compiler.assignmentH] at h
      injection h with h
      subst h
      exact pe_after (peMono_set_name _ _)
        (get_appendLine_self hfresh "mutation"
          (some (base :: fragment :: chained)) none none p none none none) rfl
    | callA cnames cargs =>
      simp only [Compiler.assignmentH] at h
      obtain ⟨L1, h1, h2⟩ := except_bind_ok h
      injection h2 with h2
      subst h2
      unfold Compiler.call_expressionH at h1
      split at h1
      · split at h1
        · injection h1 with h1
          subst h1
          exact pe_after (peMono_set_name _ _)
            (get_appendLine_self hfresh "call" (some cargs) none none p
              (some (String.intercalate "." cnames)) none none) rfl
        · exact absurd h1 (by simp)
      · exact absurd h1 (by simp)
  | serviceBlock ln path command args output body =>
    simp only [Compiler.subtree] at h
    have pe := (peAll (sizeOf body)).2 body le_rfl _ _ _ h
    revert pe h
    unfold Compiler.serviceH
    split
    · intro h pe
      exact pe_after pe
        (get_appendLine_self hfresh "mutation"
          (some (Value.path path :: Value.mutationV (command.getD "") args
            :: [])) none none p none none none) rfl
    · intro h pe
      exact pe_after (peMono_trans (peMono_of_lines_eq rfl) pe)
        (get_appendLine_self hfresh "execute" (some args) (some output)
          (firstLineOf body) p (some (String.intercalate "." path)) command
          none) rfl
  | callExpression ln names args =>
    simp only [Compiler.subtree] at h
    unfold Compiler.call_expressionH at h
    split at h
    · split at h
      · injection h with h
        subst h
        exact pe_after (peMono_refl _)
          (get_appendLine_self hfresh "call" (some args) none none p
            (some (String.intercalate "." names)) none none) rfl
      · exact absurd h (by simp)
    · exact absurd h (by simp)
  | ifBlock ln cond body elseifs elsePart =>
    simp only [Compiler.subtree] at h
    obtain ⟨L3, h3, h45⟩ := except_bind_ok h
    obtain ⟨L4, h4, h5⟩ := except_bind_ok h45
    have pe1 := (peAll (sizeOf body)).2 body le_rfl _ _ _ h3
    have pe2 := (peAll (sizeOf elseifs)).2 elseifs le_rfl _ _ _ h4
    have pe3 : peMono L4 L' := by
      cases elsePart with
      | none => injection h5 with h5; subst h5; exact peMono_refl _
      | some e => exact (peAll (sizeOf e)).1 e le_rfl _ _ _ h5
    exact pe_after (peMono_trans pe1 (peMono_trans pe2 pe3))
      (get_appendLine_self hfresh "if" (some [cond]) none (firstLineOf body)
        p none none none) rfl
  | elseifBlock ln cond body =>
    simp only [Compiler.subtree] at h
    have pe := (peAll (sizeOf body)).2 body le_rfl _ _ _ h
    exact pe_after pe
      (get_appendLine_self (set_exit_get_none hfresh ln) "elif" (some [cond])
        none (firstLineOf body) p none none none) rfl
  | elseBlock ln body =>
    simp only [Compiler.subtree] at h
    have pe := (peAll (sizeOf body)).2 body le_rfl _ _ _ h
    exact pe_after pe
      (get_appendLine_self (set_exit_get_none hfresh ln) "else" none none
        (firstLineOf body) p none none none) rfl
  | foreachBlock ln entity output body =>
    simp only [Compiler.subtree] at h
    have pe := (peAll (sizeOf body)).2 body le_rfl _ _ _ h
    exact pe_after pe
      (get_appendLine_self hfresh "for" (some [entity]) (some output)
        (firstLineOf body) p none none none) rfl
  | whileBlock ln cond body =>
    simp only [Compiler.subtree] at h
    have pe := (peAll (sizeOf body)).2 body le_rfl _ _ _ h
    exact pe_after pe
      (get_appendLine_self hfresh "while" (some [cond]) none
        (firstLineOf body) p none none none) rfl
  | functionBlock ln fname fargs fout body =>
    simp only [Compiler.subtree] at h
    split at h
    · exact absurd h (by simp)
    · have pe := (peAll (sizeOf body)).2 body le_rfl _ _ _ h
      exact pe_after pe
        (get_appendLine_self hfresh "function" (some fargs) (some fout)
          (firstLineOf body) p none none (some fname)) rfl
  | tryBlock ln body catchPart finallyPart =>
    simp only [Compiler.subtree] at h
    obtain ⟨L3, h3, h45⟩ := except_bind_ok h
    obtain ⟨L4, h4, h5⟩ := except_bind_ok h45
    have pe1 := (peAll (sizeOf body)).2 body le_rfl _ _ _ h3
    have pe2 : peMono L3 L4 := by
      cases catchPart with
      | none => injection h4 with h4; subst h4; exact peMono_refl _
      | some c => exact (peAll (sizeOf c)).1 c le_rfl _ _ _ h4
    have pe3 : peMono L4 L' := by
      cases finallyPart with
      | none => injection h5 with h5; subst h5; exact peMono_refl _
      | some f => exact (peAll (sizeOf f)).1 f le_rfl _ _ _ h5
    exact pe_after (peMono_trans pe1 (peMono_trans pe2 pe3))
      (get_appendLine_self hfresh "try" none none (firstLineOf body) p none
        none none) rfl
  | catchBlock ln cnames body =>
    simp only [Compiler.subtree] at h
    have pe := (peAll (sizeOf body)).2 body le_rfl _ _ _ h
    exact pe_after pe
      (get_appendLine_self (set_exit_get_none hfresh ln) "catch" none
        (some cnames) (firstLineOf body) p none none none) rfl
  | finallyBlock ln body =>
    simp only [Compiler.subtree] at h
    have pe := (peAll (sizeOf body)).2 body le_rfl _ _ _ h
    exact pe_after pe
      (get_appendLine_self (set_exit_get_none hfresh ln) "finally" none none
        (firstLineOf body) p none none none) rfl
  | returnStatement ln value =>
    simp only [Compiler.subtree, Compiler.return_statementH] at h
    split at h
    · exact absurd h (by simp)
    · injection h with h
      subst h
      exact pe_after (peMono_refl _)
        (get_appendLine_self hfresh "return" (value.map (fun v => [v])) none
          none (some _) none none none) rfl
  | breakStatement ln =>
    simp only [Compiler.subtree, Compiler.break_statementH] at h
    split at h
    · exact absurd h (by simp)
    · injection h with h
      subst h
      exact pe_after (peMono_refl _)
        (get_appendLine_self hfresh "break" none none none (some _) none none
          none) rfl
  | throwStatement ln entity =>
    simp only [Compiler.subtree, Compiler.throw_statementH] at h
    injection h with h
    subst h
    cases entity with
    | none =>
      exact pe_after (peMono_refl _)
        (get_appendLine_self hfresh "throw" (some []) none none p none none
          none) rfl
    | some v =>
      exact pe_after (peMono_refl _)
        (get_appendLine_self hfresh "throw" (some [v]) none none p none none
          none) rfl
  | mutationBlock ln base fragment chained =>
    simp only [Compiler.subtree, Compiler.mutation_blockH] at h
    injection h with h
    subst h
    exact pe_after (peMono_refl _)
      (get_appendLine_self hfresh "mutation"
        (some (base :: fragment :: chained)) none none p none none none) rfl
  | indentedChain ln chained => simp [appendsOwnLine] at ha
  | argumentsCont ln args => simp [appendsOwnLine] at ha
  | imports ln moduleAlias rawPath => simp [appendsOwnLine] at ha


/-- Core of the block-header invariant: starting from the store that holds
the freshly appended header (visible at `ln`, most recent, `enter` pointing
at the first body statement's address), a successful compilation of the
nested body followed by any view-preserving continuation leaves the header's
`enter` intact and the body's first line stored at that address with the
header as its `parent`. -/
theorem c1_core {L2 L3 L' : Lines} {ln : String} {hdr : Line} {b0 : Statement}
    {rest : List Statement}
    (hget2 : L2.get ln = some hdr)
    (hlast2 : L2.lastLine = some ln)
    (hgetb : L2.get (stmtLine b0) = none)
    (henter : hdr.enter = some (stmtLine b0))
    (hm1 : hdr.method ≠ "execute") (hm2 : hdr.method ≠ "mutation")
    (himp : isImportsStmt b0 = false)
    (hpt : Compiler.parse_tree (b0 :: rest) (some ln) L2 = .ok L3)
    (hrest : peMono L3 L') :
    ∃ hdr2 first, L'.get ln = some hdr2 ∧ hdr2.enter = some (stmtLine b0) ∧
      L'.get (stmtLine b0) = some first ∧ first.parent = some ln := by
  simp only [Compiler.parse_tree] at hpt
  obtain ⟨L2b, hb0, hrest2⟩ := except_bind_ok hpt
  by_cases hap : appendsOwnLine b0 = true
  · obtain ⟨first0, hf0, hfp⟩ := subtree_first_line hb0 hap hgetb
    have peb : peMono L2 L2b := (peAll (sizeOf b0)).1 b0 le_rfl _ _ _ hb0
    have per : peMono L2b L3 :=
      (peAll (sizeOf rest)).2 rest le_rfl _ _ _ hrest2
    obtain ⟨hdr2, hh1, _, hh3⟩ :=
      (peMono_trans peb (peMono_trans per hrest)) ln hdr hget2
    obtain ⟨first, hf1, hf2, _⟩ :=
      (peMono_trans per hrest) (stmtLine b0) first0 hf0
    exact ⟨hdr2, first, hh1, hh3.trans henter, hf1, hf2.trans hfp⟩
  · exfalso
    have hcase : isImportsStmt b0 = true ∨
        (∃ a xs, b0 = Statement.argumentsCont a xs) ∨
        (∃ a xs, b0 = Statement.indentedChain a xs) := by
      cases b0 <;> simp_all [appendsOwnLine, isImportsStmt]
    rcases hcase with hc | ⟨a, xs, hc⟩ | ⟨a, xs, hc⟩
    · rw [hc] at himp
      exact absurd himp (by simp)
    · subst hc
      have hf : (hdr.method == "execute") = false := by simpa using hm1
      simp only [Compiler.subtree, Compiler.argumentsH, Lines.last, hlast2,
        hget2, hf] at hb0
      simp at hb0
    · subst hc
      have hf : (hdr.method == "mutation") = false := by simpa using hm2
      simp only [Compiler.subtree, Compiler.indented_chainH, Lines.last,
        hlast2, hget2, hf] at hb0
      simp at hb0


/-- C1: for every syntax tree representing a block statement (if, elseif,
else, for, while, try, function, catch, finally), on successful
compilation the emitted header line's `enter` field equals the address of
the first line generated while compiling its nested body (the body's first
statement's address), and the line stored at that address has the header's
address as its `parent` — the dispatcher recurses into the nested block
passing the header's address as parent.  The hypotheses state the spec's
standing invariants: fresh addresses (§3, addresses are unique per source
line) and a body that opens with a line-appending statement (an `imports`
registers a module without emitting a line; the grammar keeps imports at
top level). -/
theorem claim1_block_enter_parent {s : Statement} {ln : String}
    {body : List Statement} {b0 : Statement} {rest : List Statement}
    {p : Option String} {L L' : Lines}
    (hb : blockHead s = some (ln, body))
    (hbody : body = b0 :: rest)
    (h : Compiler.subtree s p L = .ok L')
    (himp : isImportsStmt b0 = false)
    (hfresh1 : L.get ln = none)
    (hfresh2 : L.get (stmtLine b0) = none)
    (hne : stmtLine b0 ≠ ln) :
    ∃ hdr first, L'.get ln = some hdr ∧ hdr.enter = some (stmtLine b0) ∧
      L'.get (stmtLine b0) = some first ∧ first.parent = some ln := by
  subst hbody
  cases s with
  | ifBlock ln' cond body' elseifs elsePart =>
    simp only [blockHead, Option.some.injEq, Prod.mk.injEq] at hb
    obtain ⟨h1, h2⟩ := hb
    subst h1
    subst h2
    simp only [Compiler.subtree] at h
    obtain ⟨L3, h3, h45⟩ := except_bind_ok h
    obtain ⟨L4, h4, h5⟩ := except_bind_ok h45
    have hrest : peMono L3 L' := by
      have pe2 := (peAll (sizeOf elseifs)).2 elseifs le_rfl _ _ _ h4
      cases elsePart with
      | none =>
        injection h5 with h5
        subst h5
        exact pe2
      | some e =>
        exact peMono_trans pe2 ((peAll (sizeOf e)).1 e le_rfl _ _ _ h5)
    have hg := get_appendLine_self
      (show ((L.set_scope ln' p []).finish_scope ln').get ln' = none from
        hfresh1) "if" (some [cond]) none (firstLineOf (b0 :: rest)) p none
      none none
    refine c1_core hg rfl ?_ ?_ ?_ ?_ himp h3 hrest
    · rw [get_appendLine_of_ne hne]
      exact hfresh2
    · rfl
    · simp
    · simp
  | elseifBlock ln' cond body' =>
    simp only [blockHead, Option.some.injEq, Prod.mk.injEq] at hb
    obtain ⟨h1, h2⟩ := hb
    subst h1
    subst h2
    simp only [Compiler.subtree] at h
    have hg := get_appendLine_self
      (show (((L.set_exit ln').set_scope ln' p []).finish_scope ln').get
          ln' = none from set_exit_get_none hfresh1 ln') "elif"
      (some [cond]) none (firstLineOf (b0 :: rest)) p none none none
    refine c1_core hg rfl ?_ ?_ ?_ ?_ himp h
      (peMono_refl _)
    · rw [get_appendLine_of_ne hne]
      exact set_exit_get_none hfresh2 ln'
    · rfl
    · simp
    · simp
  | elseBlock ln' body' =>
    simp only [blockHead, Option.some.injEq, Prod.mk.injEq] at hb
    obtain ⟨h1, h2⟩ := hb
    subst h1
    subst h2
    simp only [Compiler.subtree] at h
    have hg := get_appendLine_self
      (show (((L.set_exit ln').set_scope ln' p []).finish_scope ln').get
          ln' = none from set_exit_get_none hfresh1 ln') "else" none none
      (firstLineOf (b0 :: rest)) p none none none
    refine c1_core hg rfl ?_ ?_ ?_ ?_ himp h
      (peMono_refl _)
    · rw [get_appendLine_of_ne hne]
      exact set_exit_get_none hfresh2 ln'
    · rfl
    · simp
    · simp
  | foreachBlock ln' entity output body' =>
    simp only [blockHead, Option.some.injEq, Prod.mk.injEq] at hb
    obtain ⟨h1, h2⟩ := hb
    subst h1
    subst h2
    simp only [Compiler.subtree] at h
    have hg := get_appendLine_self
      (show ((L.set_scope ln' p output).finish_scope ln').get ln' = none from
        hfresh1) "for" (some [entity]) (some output)
      (firstLineOf (b0 :: rest)) p none none none
    refine c1_core hg rfl ?_ ?_ ?_ ?_ himp h
      (peMono_refl _)
    · rw [get_appendLine_of_ne hne]
      exact hfresh2
    · rfl
    · simp
    · simp
  | whileBlock ln' cond body' =>
    simp only [blockHead, Option.some.injEq, Prod.mk.injEq] at hb
    obtain ⟨h1, h2⟩ := hb
    subst h1
    subst h2
    simp only [Compiler.subtree] at h
    have hg := get_appendLine_self
      (show ((L.set_scope ln' p []).finish_scope ln').get ln' = none from
        hfresh1) "while" (some [cond]) none (firstLineOf (b0 :: rest)) p
      none none none
    refine c1_core hg rfl ?_ ?_ ?_ ?_ himp h
      (peMono_refl _)
    · rw [get_appendLine_of_ne hne]
      exact hfresh2
    · rfl
    · simp
    · simp
  | functionBlock ln' fname fargs fout body' =>
    simp only [blockHead, Option.some.injEq, Prod.mk.injEq] at hb
    obtain ⟨h1, h2⟩ := hb
    subst h1
    subst h2
    simp only [Compiler.subtree] at h
    split at h
    · exact absurd h (by simp)
    · have hg := get_appendLine_self
        (show ({ L with functions := L.functions ++ [(fname, ln')] }
            : Lines).get ln' = none from hfresh1) "function" (some fargs)
        (some fout) (firstLineOf (b0 :: rest)) p none none (some fname)
      refine c1_core hg rfl ?_ ?_ ?_ ?_ himp h
        (peMono_refl _)
      · rw [get_appendLine_of_ne hne]
        exact hfresh2
      · rfl
      · simp
      · simp
  | tryBlock ln' body' catchPart finallyPart =>
    simp only [blockHead, Option.some.injEq, Prod.mk.injEq] at hb
    obtain ⟨h1, h2⟩ := hb
    subst h1
    subst h2
    simp only [Compiler.subtree] at h
    obtain ⟨L3, h3, h45⟩ := except_bind_ok h
    obtain ⟨L4, h4, h5⟩ := except_bind_ok h45
    have hrest : peMono L3 L' := by
      have pe2 : peMono L3 L4 := by
        cases catchPart with
        | none =>
          injection h4 with h4
          subst h4
          exact peMono_refl _
        | some c => exact (peAll (sizeOf c)).1 c le_rfl _ _ _ h4
      have pe3 : peMono L4 L' := by
        cases finallyPart with
        | none =>
          injection h5 with h5
          subst h5
          exact peMono_refl _
        | some f => exact (peAll (sizeOf f)).1 f le_rfl _ _ _ h5
      exact peMono_trans pe2 pe3
    have hg := get_appendLine_self
      (show ((L.set_scope ln' p []).finish_scope ln').get ln' = none from
        hfresh1) "try" none none (firstLineOf (b0 :: rest)) p none none none
    refine c1_core hg rfl ?_ ?_ ?_ ?_ himp h3 hrest
    · rw [get_appendLine_of_ne hne]
      exact hfresh2
    · rfl
    · simp
    · simp
  | catchBlock ln' cnames body' =>
    simp only [blockHead, Option.some.injEq, Prod.mk.injEq] at hb
    obtain ⟨h1, h2⟩ := hb
    subst h1
    subst h2
    simp only [Compiler.subtree] at h
    have hg := get_appendLine_self
      (show (((L.set_exit ln').set_scope ln' p cnames).finish_scope
          ln').get ln' = none from set_exit_get_none hfresh1 ln') "catch"
      none (some cnames) (firstLineOf (b0 :: rest)) p none none none
    refine c1_core hg rfl ?_ ?_ ?_ ?_ himp h
      (peMono_refl _)
    · rw [get_appendLine_of_ne hne]
      exact set_exit_get_none hfresh2 ln'
    · rfl
    · simp
    · simp
  | finallyBlock ln' body' =>
    simp only [blockHead, Option.some.injEq, Prod.mk.injEq] at hb
    obtain ⟨h1, h2⟩ := hb
    subst h1
    subst h2
    simp only [Compiler.subtree] at h
    have hg := get_appendLine_self
      (show (((L.set_exit ln').set_scope ln' p []).finish_scope ln').get
          ln' = none from set_exit_get_none hfresh1 ln') "finally" none none
      (firstLineOf (b0 :: rest)) p none none none
    refine c1_core hg rfl ?_ ?_ ?_ ?_ himp h
      (peMono_refl _)
    · rw [get_appendLine_of_ne hne]
      exact set_exit_get_none hfresh2 ln'
    · rfl
    · simp
    · simp
  | assignment a b c => simp [blockHead] at hb
  | serviceBlock a b c d e f => simp [blockHead] at hb
  | callExpression a b c => simp [blockHead] at hb
  | returnStatement a b => simp [blockHead] at hb
  | breakStatement a => simp [blockHead] at hb
  | throwStatement a b => simp [blockHead] at hb
  | mutationBlock a b c d => simp [blockHead] at hb
  | indentedChain a b => simp [blockHead] at hb
  | argumentsCont a b => simp [blockHead] at hb
  | imports a b c => simp [blockHead] at hb


/-! ## The claims -/

theorem intercalate_single (n : String) : String.intercalate "." [n] = n :=
  rfl

theorem intercalate_pair (m f : String) :
    String.intercalate "." [m, f] = m ++ "." ++ f :=
  rfl

theorem updateLine_keys (L : Lines) (a : String) (f : Line → Line) :
    (L.updateLine a f).lines.map Prod.fst = L.lines.map Prod.fst := by
  show (L.lines.map _).map Prod.fst = _
  rw [List.map_map]
  rfl

/-- C1 witness: the two-line program `if true` (line 1) with body `break`
(line 2), compiled from the empty store — the theorem applied at this
concrete input. -/
theorem claim1_witness :
    ∃ hdr first, c1WitnessStore.get "1" = some hdr ∧
      hdr.enter = some (stmtLine (Statement.breakStatement "2")) ∧
      c1WitnessStore.get (stmtLine (Statement.breakStatement "2")) =
        some first ∧ first.parent = some "1" :=
  @claim1_block_enter_parent
    (Statement.ifBlock "1" (Value.boolean true) [Statement.breakStatement "2"]
      [] none)
    "1" [Statement.breakStatement "2"] (Statement.breakStatement "2") []
    none {} c1WitnessStore rfl rfl
    (by simp [Compiler.subtree, Compiler.parse_tree,
      Compiler.break_statementH, Lines.appendLine, Lines.set_scope,
      Lines.finish_scope, firstLineOf, stmtLine, c1WitnessStore, bind,
      Except.bind])
    rfl rfl rfl (by decide)

/-- C2: an `arguments` continuation compiled immediately after an `execute`
line extends that line's existing `args` in place (new arguments appended
after the existing ones), creating no new address and leaving `last()`
unchanged; an indented mutation chain after a `mutation` line likewise
extends that line's `args`; with no preceding line at all, or a preceding
line of the wrong method, compilation fails with `arguments_noservice` /
`arguments_nomutation` respectively. -/
theorem claim2_continuation_extends :
    (∀ (ln : String) (xs : List Value) (p : Option String) (L : Lines)
        (a : String) (l : Line), L.last = some a → L.get a = some l →
      l.method = "execute" →
      Compiler.subtree (.argumentsCont ln xs) p L =
        .ok (L.updateLine a
          (fun x => { x with args := some (x.args.getD [] ++ xs) })) ∧
      (L.updateLine a
          (fun x => { x with args := some (x.args.getD [] ++ xs) })).lines.map
        Prod.fst = L.lines.map Prod.fst ∧
      (L.updateLine a
          (fun x => { x with args := some (x.args.getD [] ++ xs) })).lastLine
        = L.lastLine ∧
      (L.updateLine a
          (fun x => { x with args := some (x.args.getD [] ++ xs) })).get a =
        some { l with args := some (l.args.getD [] ++ xs) }) ∧
    (∀ (ln : String) (xs : List Value) (p : Option String) (L : Lines),
      L.last = none →
      Compiler.subtree (.argumentsCont ln xs) p L =
        .error { code := "arguments_noservice" }) ∧
    (∀ (ln : String) (xs : List Value) (p : Option String) (L : Lines)
        (a : String) (l : Line), L.last = some a → L.get a = some l →
      l.method ≠ "execute" →
      Compiler.subtree (.argumentsCont ln xs) p L =
        .error { code := "arguments_noservice" }) ∧
    (∀ (ln : String) (xs : List Value) (p : Option String) (L : Lines)
        (a : String) (l : Line), L.last = some a → L.get a = some l →
      l.method = "mutation" →
      Compiler.subtree (.indentedChain ln xs) p L =
        .ok (L.updateLine a
          (fun x => { x with args := some (x.args.getD [] ++ xs) }))) ∧
    (∀ (ln : String) (xs : List Value) (p : Option String) (L : Lines),
      L.last = none →
      Compiler.subtree (.indentedChain ln xs) p L =
        .error { code := "arguments_nomutation" }) ∧
    (∀ (ln : String) (xs : List Value) (p : Option String) (L : Lines)
        (a : String) (l : Line), L.last = some a → L.get a = some l →
      l.method ≠ "mutation" →
      Compiler.subtree (.indentedChain ln xs) p L =
        .error { code := "arguments_nomutation" }) := by
  refine ⟨?_, ?_, ?_, ?_, ?_, ?_⟩
  · intro ln xs p L a l h1 h2 h3
    refine ⟨?_, updateLine_keys L a _, rfl, ?_⟩
    · simp [Compiler.subtree, Compiler.argumentsH, h1, h2, h3]
    · rw [get_updateLine]
      simp [h2]
  · intro ln xs p L h1
    simp [Compiler.subtree, Compiler.argumentsH, h1]
  · intro ln xs p L a l h1 h2 h3
    have hf : (l.method == "execute") = false := by simpa using h3
    simp [Compiler.subtree, Compiler.argumentsH, h1, h2, hf]
  · intro ln xs p L a l h1 h2 h3
    simp [Compiler.subtree, Compiler.indented_chainH, h1, h2, h3]
  · intro ln xs p L h1
    simp [Compiler.subtree, Compiler.indented_chainH, h1]
  · intro ln xs p L a l h1 h2 h3
    have hf : (l.method == "mutation") = false := by simpa using h3
    simp [Compiler.subtree, Compiler.indented_chainH, h1, h2, hf]

/-- C2 witness: the theorem applied on concrete stores — an `execute` line
extended in place, a `mutation` line extended in place, and the four error
situations. -/
theorem claim2_witness :
    (Compiler.subtree (.argumentsCont "2" [Value.number 2]) none c2Exec =
      .ok (c2Exec.updateLine "1" (fun x =>
        { x with args := some (x.args.getD [] ++ [Value.number 2]) }))) ∧
    (Compiler.subtree (.argumentsCont "1" []) none {} =
      .error { code := "arguments_noservice" }) ∧
    (Compiler.subtree (.argumentsCont "2" []) none c2Mut =
      .error { code := "arguments_noservice" }) ∧
    (Compiler.subtree (.indentedChain "2" [Value.number 3]) none c2Mut =
      .ok (c2Mut.updateLine "1" (fun x =>
        { x with args := some (x.args.getD [] ++ [Value.number 3]) }))) ∧
    (Compiler.subtree (.indentedChain "1" []) none {} =
      .error { code := "arguments_nomutation" }) ∧
    (Compiler.subtree (.indentedChain "2" []) none c2Exec =
      .error { code := "arguments_nomutation" }) :=
  ⟨(claim2_continuation_extends.1 "2" [Value.number 2] none c2Exec "1"
      c2ExecLine rfl rfl rfl).1,
   claim2_continuation_extends.2.1 "1" [] none {} rfl,
   claim2_continuation_extends.2.2.1 "2" [] none c2Mut "1" c2MutLine rfl rfl
     (by decide),
   claim2_continuation_extends.2.2.2.1 "2" [Value.number 3] none c2Mut "1"
     c2MutLine rfl rfl rfl,
   claim2_continuation_extends.2.2.2.2.1 "1" [] none {} rfl,
   claim2_continuation_extends.2.2.2.2.2 "2" [] none c2Exec "1" c2ExecLine
     rfl rfl (by decide)⟩

/-- C3: re-declaring a function name `f` already recorded in the functions
registry at address `A` fails with `function_already_declared` carrying
`function_name = f` and `line = A`, wherever in the unit (any parent, any
store state) the second declaration is attempted. -/
theorem claim3_function_redeclared (f A ln : String) (fargs : List Value)
    (fout : List String) (body : List Statement) (parent : Option String)
    (L : Lines) (h : lookupStr L.functions f = some A) :
    Compiler.subtree (.functionBlock ln f fargs fout body) parent L =
      .error { code := "function_already_declared",
               function_name := some f, line := some A } := by
  simp [Compiler.subtree, h]

/-- C3 witness: with `f` first declared at address 1, a second declaration
of `f` at line 3 fails with the recorded address. -/
theorem claim3_witness :
    Compiler.subtree (.functionBlock "3" "f" [] [] []) none
        { functions := [("f", "1")] } =
      .error { code := "function_already_declared",
               function_name := some "f", line := some "1" } :=
  claim3_function_redeclared "f" "1" "3" [] [] [] none
    { functions := [("f", "1")] } rfl

/-- C4 counterexample: the bare call `a.b` with `a.b` not declared and `a`
not an imported module does fail, but with `function_call_invalid_path`
(the path-shape validation fires first), not `function_call_no_function`
as the claim states. -/
theorem claim4_counterexample :
    lookupStr (Lines.functions {}) "a.b" = none ∧
    lookupStr (Lines.modules {}) "a" = none ∧
    Compiler.subtree (.callExpression "1" ["a", "b"] []) none {} =
      .error { code := "function_call_invalid_path", name := some "a.b" } ∧
    Compiler.subtree (.callExpression "1" ["a", "b"] []) none {} ≠
      .error { code := "function_call_no_function", name := some "a.b" } := by
  refine ⟨rfl, rfl, ?_, ?_⟩ <;>
    simp [Compiler.subtree, Compiler.call_expressionH, lookupStr] <;> rfl

/-- C4 (amended): for bare call statements that pass the path-shape
validation: a single-segment name neither declared nor naming a module
fails with `function_call_no_function` carrying the full name; when the
first segment is a registered module (a single module-qualifier), the
check passes and the `call` line is emitted. -/
theorem claim4_no_function :
    (∀ (ln n : String) (args : List Value) (p : Option String) (L : Lines),
      lookupStr L.functions n = none → lookupStr L.modules n = none →
      Compiler.subtree (.callExpression ln [n] args) p L =
        .error { code := "function_call_no_function", name := some n }) ∧
    (∀ (ln m f : String) (args : List Value) (p : Option String) (L : Lines)
        (mp : String), lookupStr L.modules m = some mp →
      Compiler.subtree (.callExpression ln [m, f] args) p L =
        .ok (L.appendLine "call" ln (some args) none none p
          (some (String.intercalate "." [m, f])) none none)) := by
  constructor
  · intro ln n args p L h1 h2
    simp [Compiler.subtree, Compiler.call_expressionH, intercalate_single,
      h1, h2]
  · intro ln m f args p L mp h
    simp [Compiler.subtree, Compiler.call_expressionH, h]

/-- C4 witness: the amended theorem applied at concrete inputs — `foo`
unresolvable yields `function_call_no_function` with the name, and
`mod.fn` with `mod` registered compiles to a `call` line. -/
theorem claim4_witness :
    (Compiler.subtree (.callExpression "1" ["foo"] []) none {} =
      .error { code := "function_call_no_function", name := some "foo" }) ∧
    (Compiler.subtree (.callExpression "1" ["mod", "fn"] []) none
        { modules := [("mod", "path")] } =
      .ok ((({ modules := [("mod", "path")] } : Lines)).appendLine "call" "1"
        (some []) none none none (some (String.intercalate "." ["mod", "fn"]))
        none none)) :=
  ⟨claim4_no_function.1 "1" "foo" [] none {} rfl rfl,
   claim4_no_function.2 "1" "mod" "fn" [] none
     { modules := [("mod", "path")] } "path" rfl⟩

/-- C5: a bare call statement whose flattened path has more than one
segment and is not a single registered module-qualifier fails with
`function_call_invalid_path` carrying the dot-joined segments as the
`name` context field. -/
theorem claim5_invalid_path (ln : String) (names : List String)
    (args : List Value) (p : Option String) (L : Lines)
    (h1 : 1 < names.length)
    (h2 : ¬ (names.length = 2 ∧
      (lookupStr L.modules (names.headD "")).isSome = true)) :
    Compiler.subtree (.callExpression ln names args) p L =
      .error { code := "function_call_invalid_path",
               name := some (String.intercalate "." names) } := by
  have e1 : (names.length == 1) = false := by
    rw [beq_eq_false_iff_ne]
    omega
  have e2 : (names.length == 2 &&
      (lookupStr L.modules (names.headD "")).isSome) = false := by
    rcases eq_or_ne names.length 2 with he | he
    · cases hx : (lookupStr L.modules (names.headD "")).isSome with
      | false => simp [hx]
      | true => exact absurd ⟨he, hx⟩ h2
    · have : (names.length == 2) = false := by
        rw [beq_eq_false_iff_ne]
        exact he
      simp [this]
  simp [Compiler.subtree, Compiler.call_expressionH, e1, e2]
  intro ha hb
  rw [← List.headD_eq_head?_getD] at hb
  exact absurd ⟨ha, hb⟩ h2

/-- C5 witness: the theorem applied to the two-segment call `a.b` with no
registered modules. -/
theorem claim5_witness :
    Compiler.subtree (.callExpression "1" ["a", "b"] [Value.number 1]) none
        {} =
      .error { code := "function_call_invalid_path",
               name := some (String.intercalate "." ["a", "b"]) } :=
  claim5_invalid_path "1" ["a", "b"] [Value.number 1] none {} (by decide)
    (by decide)

/-- C6: a `return` statement compiled with no parent fails with
`return_outside`; compiled with a parent it succeeds and appends exactly
one `return` line, whose `args` is absent for a bare return and holds the
single compiled value otherwise. -/
theorem claim6_return_statement :
    (∀ (ln : String) (v : Option Value) (L : Lines),
      Compiler.subtree (.returnStatement ln v) none L =
        .error { code := "return_outside" }) ∧
    (∀ (ln : String) (v : Option Value) (p : String) (L : Lines),
      Compiler.subtree (.returnStatement ln v) (some p) L =
        .ok (L.appendLine "return" ln (v.map (fun x => [x])) none none
          (some p) none none none) ∧
      (L.appendLine "return" ln (v.map (fun x => [x])) none none (some p)
        none none none).lines.length = L.lines.length + 1) := by
  constructor
  · intro ln v L
    simp [Compiler.subtree, Compiler.return_statementH]
  · intro ln v p L
    constructor
    · simp [Compiler.subtree, Compiler.return_statementH]
    · simp [Lines.appendLine]

/-- C7: the two-line source `x = 1` / `y = x` lowers to exactly two lines:
line 1 a `set` binding `x` to the literal 1, line 2 a `set` binding `y`
to the path value over segments `[x]` — the bare name on the right-hand
side resolves to a variable path, not a service call, because `x` is in
scope at that point in the walk. -/
theorem claim7_assignment_scenario :
    Compiler.parse_tree
      [ .assignment "1" ["x"] (.unary (Value.number 1)),
        .assignment "2" ["y"] (.service ["x"] none []) ] none {} =
    .ok { lines := [("1", { method := "set", ln := "1",
                            args := some [Value.number 1] }),
                    ("2", { method := "set", ln := "2",
                            args := some [Value.path ["x"]] })],
          lastLine := some "2", vars := ["y", "x"] } := by
  simp +decide [Compiler.parse_tree, Compiler.subtree, Compiler.assignmentH,
    Lines.appendLine, Lines.setLastMethod, Lines.updateLine, Lines.set_name,
    Lines.is_variable_defined, Lines.last, Lines.get, lookupStr, bind,
    Except.bind]

/-- Dropping the last element of `cs ++ [d]` gives back `cs`. -/
theorem dropLast_append_singleton {α : Type} (cs : List α) (d : α) :
    (cs ++ [d]).dropLast = cs := by
  induction cs with
  | nil => rfl
  | cons a t ih =>
    cases t with
    | nil => rfl
    | cons b t' =>
      show a :: (((b :: t') ++ [d]).dropLast) = a :: (b :: t')
      exact congrArg (a :: ·) ih

/-- `stripQuotes` on an explicitly delimited text peels exactly the two
delimiter characters. -/
theorem stripQuotes_mk (c d : Char) (cs : List Char) :
    stripQuotes (String.mk (c :: cs ++ [d])) = String.mk cs := by
  show String.mk (((c :: cs ++ [d]).drop 1).dropLast) = String.mk cs
  exact congrArg String.mk (dropLast_append_singleton cs d)

/-- Dropping the length of `l₁` from `l₁ ++ l₂` gives `l₂`. -/
theorem drop_len_append {α : Type} (l₁ l₂ : List α) :
    (l₁ ++ l₂).drop l₁.length = l₂ := by
  induction l₁ with
  | nil => rfl
  | cons a t ih => simp [ih]

/-- A list is a `isPrefixOf`-prefix of itself followed by anything. -/
theorem isPrefixOf_self_append (l r : List Char) :
    l.isPrefixOf (l ++ r) = true := by
  induction l with
  | nil => simp [List.isPrefixOf]
  | cons a t ih => simp [List.isPrefixOf, ih]

/-- A pattern whose head differs from the scanned head does not match. -/
theorem isPrefixOf_cons_ne {p0 c : Char} (pt rest : List Char)
    (h : p0 ≠ c) : (p0 :: pt).isPrefixOf (c :: rest) = false := by
  have hb : (p0 == c) = false := by
    rw [beq_eq_false_iff_ne]
    exact h
  simp [List.isPrefixOf, hb]

/-- The placeholder scanner, outside a placeholder, skips characters that
are not an opening brace. -/
theorem findGo_skip (cs rest : List Char)
    (hcs : ∀ c ∈ cs, c ≠ lcurly) :
    Objects.findPlaceholdersGo (cs ++ rest) none =
      Objects.findPlaceholdersGo rest none := by
  revert hcs
  induction cs with
  | nil => intro _; rfl
  | cons c cs' ih =>
    intro hcs
    have hc : c ≠ lcurly := hcs c (List.mem_cons_self _ _)
    rw [List.cons_append]
    have hstep : Objects.findPlaceholdersGo (c :: (cs' ++ rest)) none =
        Objects.findPlaceholdersGo (cs' ++ rest) none := by
      simp [Objects.findPlaceholdersGo, hc]
    rw [hstep]
    exact ih (fun x hx => hcs x (List.mem_cons_of_mem _ hx))

/-- The placeholder scanner finds nothing in a text with no opening brace. -/
theorem findGo_nil (cs : List Char) (hcs : ∀ c ∈ cs, c ≠ lcurly) :
    Objects.findPlaceholdersGo cs none = [] := by
  have h := findGo_skip cs [] hcs
  simpa using h

/-- `replaceAllGo` is independent of the fuel as long as the fuel covers
the scanned text (every step consumes at least one character). -/
theorem replaceAllGo_fuel : ∀ (k : Nat) (cs : List Char) (n m : Nat)
    (pat repl : List Char), cs.length ≤ k → cs.length ≤ n →
    cs.length ≤ m →
    Objects.replaceAllGo n cs pat repl =
      Objects.replaceAllGo m cs pat repl := by
  intro k
  induction k with
  | zero =>
    intro cs n m pat repl hk _ _
    have hcs : cs = [] := List.length_eq_zero.mp (Nat.le_zero.mp hk)
    subst hcs
    cases n <;> cases m <;> rfl
  | succ k ih =>
    intro cs n m pat repl hk hn hm
    cases cs with
    | nil => cases n <;> cases m <;> rfl
    | cons c rest =>
      cases n with
      | zero => simp at hn
      | succ n' =>
        cases m with
        | zero => simp at hm
        | succ m' =>
          simp only [List.length_cons] at hk hn hm
          simp only [Objects.replaceAllGo]
          by_cases hcond :
              (decide (pat ≠ []) && pat.isPrefixOf (c :: rest)) = true
          · rw [if_pos hcond, if_pos hcond]
            have hpat : pat ≠ [] := by
              have h2 := hcond
              simp only [Bool.and_eq_true, decide_eq_true_eq] at h2
              exact h2.1
            have hplen : 0 < pat.length := List.length_pos.mpr hpat
            have hdl : ((c :: rest).drop pat.length).length ≤ rest.length := by
              simp only [List.length_drop, List.length_cons]
              omega
            exact congrArg (repl ++ ·)
              (ih _ _ _ _ _ (by omega) (by omega) (by omega))
          · rw [if_neg hcond, if_neg hcond]
            exact congrArg (c :: ·)
              (ih _ _ _ _ _ (by omega) (by omega) (by omega))

/-- The replace loop copies a stretch of text that cannot start a match of
a brace-opened pattern. -/
theorem replaceAllGo_skip (cs rest t repl' : List Char)
    (hcs : ∀ c ∈ cs, c ≠ lcurly) :
    Objects.replaceAllGo (cs ++ rest).length (cs ++ rest)
        (lcurly :: t) repl' =
      cs ++ Objects.replaceAllGo rest.length rest (lcurly :: t) repl' := by
  revert hcs
  induction cs with
  | nil => intro _; rfl
  | cons c cs' ih =>
    intro hcs
    have hc : c ≠ lcurly := hcs c (List.mem_cons_self _ _)
    have hbeq : (lcurly == c) = false := by
      rw [beq_eq_false_iff_ne]
      exact fun h => hc h.symm
    rw [List.cons_append]
    simp only [List.length_cons, Objects.replaceAllGo]
    rw [if_neg (by simp [List.isPrefixOf, hbeq])]
    rw [ih (fun x hx => hcs x (List.mem_cons_of_mem _ hx))]
    rfl

/-- The replace loop, at an occurrence of the pattern, emits the
replacement and resumes after the occurrence. -/
theorem replaceAllGo_match (rest t repl' : List Char) :
    Objects.replaceAllGo ((lcurly :: t) ++ rest).length
        ((lcurly :: t) ++ rest) (lcurly :: t) repl' =
      repl' ++ Objects.replaceAllGo rest.length rest (lcurly :: t)
        repl' := by
  simp only [List.cons_append, List.length_cons, Objects.replaceAllGo]
  rw [if_pos]
  · refine congrArg (repl' ++ ·) ?_
    have hd : List.drop (t.length + 1) (lcurly :: List.append t rest) =
        rest := by
      simp [drop_len_append t rest]
    rw [hd]
    exact replaceAllGo_fuel (t ++ rest).length rest _ _ _ _
      (by simp) (by simp) (le_refl _)
  · simp only [Bool.and_eq_true, decide_eq_true_eq]
    exact ⟨by simp, isPrefixOf_self_append (lcurly :: t) rest⟩

/-- The replace loop copies one character at a non-matching position. -/
theorem replaceAllGo_copy (c : Char) (rest pat repl' : List Char)
    (h : pat.isPrefixOf (c :: rest) = false) :
    Objects.replaceAllGo (c :: rest).length (c :: rest) pat repl' =
      c :: Objects.replaceAllGo rest.length rest pat repl' := by
  simp only [List.length_cons, Objects.replaceAllGo]
  rw [if_neg (by simp [h])]

/-- The replace loop leaves a text with no opening brace unchanged. -/
theorem replaceAllGo_id (cs t repl' : List Char)
    (hcs : ∀ c ∈ cs, c ≠ lcurly) :
    Objects.replaceAllGo cs.length cs (lcurly :: t) repl' = cs := by
  have h := replaceAllGo_skip cs [] t repl' hcs
  simpa [Objects.replaceAllGo] using h

/-- `refill` copies a stretch of text holding no opening brace. -/
theorem refill_skip (cs rest : List Char) (vs : List String)
    (hcs : ∀ c ∈ cs, c ≠ lcurly) :
    Objects.refill (cs ++ rest) vs = cs ++ Objects.refill rest vs := by
  revert hcs
  induction cs with
  | nil => intro _; rfl
  | cons c cs' ih =>
    intro hcs
    have hc : c ≠ lcurly := hcs c (List.mem_cons_self _ _)
    rw [List.cons_append]
    cases hz : cs' ++ rest with
    | nil =>
      obtain ⟨hcs', hrest⟩ := List.append_eq_nil.mp hz
      subst hcs'
      subst hrest
      rfl
    | cons c2 z =>
      simp only [Objects.refill]
      rw [if_neg (by simp [hc])]
      rw [← hz]
      rw [ih (fun x hx => hcs x (List.mem_cons_of_mem _ hx))]
      rfl

/-- `refill` at an empty hole re-inserts the next name between the
braces. -/
theorem refill_hole (rest : List Char) (v : String) (vt : List String) :
    Objects.refill (lcurly :: rcurly :: rest) (v :: vt) =
      (lcurly :: v.data ++ [rcurly]) ++ Objects.refill rest vt := by
  simp [Objects.refill]

/-- `refill` leaves a text with no opening brace unchanged. -/
theorem refill_id (cs : List Char) (vs : List String)
    (hcs : ∀ c ∈ cs, c ≠ lcurly) :
    Objects.refill cs vs = cs := by
  have h := refill_skip cs [] vs hcs
  simpa [Objects.refill] using h

/-- C8: for every string literal whose raw text is an arbitrary
placeholder-free text, then the placeholder `\x7bx\x7d`, an arbitrary
placeholder-free text, the placeholder `\x7by\x7d` and an arbitrary
placeholder-free tail, the compiled string value's text replaces each
placeholder by an empty hole keeping the order and the surrounding text,
its values are the path-compiled `x` then `y` in that order, and refilling
the holes with the names in order reconstructs the original text. -/
theorem claim8_string_template_roundtrip (pre mid post : String)
    (hp : ∀ c ∈ pre.data, c ≠ lcurly)
    (hm : ∀ c ∈ mid.data, c ≠ lcurly)
    (hq : ∀ c ∈ post.data, c ≠ lcurly) :
    Objects.string (String.mk ('"' :: (pre.data ++ (lcurly :: 'x' ::
        rcurly :: (mid.data ++ (lcurly :: 'y' :: rcurly :: post.data))))
        ++ ['"'])) =
      Value.string (String.mk (pre.data ++ (lcurly :: rcurly ::
          (mid.data ++ (lcurly :: rcurly :: post.data)))))
        [Value.path ["x"], Value.path ["y"]] ∧
    String.mk (Objects.refill (pre.data ++ (lcurly :: rcurly ::
        (mid.data ++ (lcurly :: rcurly :: post.data)))) ["x", "y"]) =
      String.mk (pre.data ++ (lcurly :: 'x' :: rcurly ::
        (mid.data ++ (lcurly :: 'y' :: rcurly :: post.data)))) := by
  have hfind : Objects.findPlaceholders (String.mk (pre.data ++
      (lcurly :: 'x' :: rcurly :: (mid.data ++
        (lcurly :: 'y' :: rcurly :: post.data))))) = ["x", "y"] := by
    show Objects.findPlaceholdersGo (pre.data ++ (lcurly :: 'x' ::
      rcurly :: (mid.data ++ (lcurly :: 'y' :: rcurly :: post.data))))
      none = ["x", "y"]
    rw [findGo_skip _ _ hp]
    rw [show Objects.findPlaceholdersGo (lcurly :: 'x' :: rcurly ::
        (mid.data ++ (lcurly :: 'y' :: rcurly :: post.data))) none =
      "x" :: Objects.findPlaceholdersGo (mid.data ++
        (lcurly :: 'y' :: rcurly :: post.data)) none from rfl]
    rw [findGo_skip _ _ hm]
    rw [show Objects.findPlaceholdersGo
        (lcurly :: 'y' :: rcurly :: post.data) none =
      "y" :: Objects.findPlaceholdersGo post.data none from rfl]
    rw [findGo_nil _ hq]
  have hstep1 : Objects.replaceAllGo
      (pre.data ++ (lcurly :: 'x' :: rcurly :: (mid.data ++
        (lcurly :: 'y' :: rcurly :: post.data)))).length
      (pre.data ++ (lcurly :: 'x' :: rcurly :: (mid.data ++
        (lcurly :: 'y' :: rcurly :: post.data))))
      (lcurly :: ['x', rcurly]) [lcurly, rcurly] =
      pre.data ++ (lcurly :: rcurly :: (mid.data ++
        (lcurly :: 'y' :: rcurly :: post.data))) := by
    rw [replaceAllGo_skip _ _ _ _ hp]
    rw [show (lcurly :: 'x' :: rcurly :: (mid.data ++
        (lcurly :: 'y' :: rcurly :: post.data))) =
      (lcurly :: ['x', rcurly]) ++ (mid.data ++
        (lcurly :: 'y' :: rcurly :: post.data)) from rfl]
    rw [replaceAllGo_match]
    rw [replaceAllGo_skip _ _ _ _ hm]
    rw [replaceAllGo_copy lcurly ('y' :: rcurly :: post.data) _ _
      (by simp [List.isPrefixOf, show ('x' == 'y') = false from by decide])]
    rw [replaceAllGo_copy 'y' (rcurly :: post.data) _ _
      (isPrefixOf_cons_ne _ _ (by decide))]
    rw [replaceAllGo_copy rcurly post.data _ _
      (isPrefixOf_cons_ne _ _ (by decide))]
    rw [replaceAllGo_id _ _ _ hq]
    rfl
  have hstep2 : Objects.replaceAllGo
      (pre.data ++ (lcurly :: rcurly :: (mid.data ++
        (lcurly :: 'y' :: rcurly :: post.data)))).length
      (pre.data ++ (lcurly :: rcurly :: (mid.data ++
        (lcurly :: 'y' :: rcurly :: post.data))))
      (lcurly :: ['y', rcurly]) [lcurly, rcurly] =
      pre.data ++ (lcurly :: rcurly :: (mid.data ++
        (lcurly :: rcurly :: post.data))) := by
    rw [replaceAllGo_skip _ _ _ _ hp]
    rw [replaceAllGo_copy lcurly (rcurly :: (mid.data ++
        (lcurly :: 'y' :: rcurly :: post.data))) _ _
      (by simp [List.isPrefixOf, show ('y' == rcurly) = false from
        by decide])]
    rw [replaceAllGo_copy rcurly (mid.data ++
        (lcurly :: 'y' :: rcurly :: post.data)) _ _
      (isPrefixOf_cons_ne _ _ (by decide))]
    rw [replaceAllGo_skip _ _ _ _ hm]
    rw [show (lcurly :: 'y' :: rcurly :: post.data) =
      (lcurly :: ['y', rcurly]) ++ post.data from rfl]
    rw [replaceAllGo_match]
    rw [replaceAllGo_id _ _ _ hq]
    rfl
  have hrepl : Objects.replace_placeholders (String.mk (pre.data ++
      (lcurly :: 'x' :: rcurly :: (mid.data ++
        (lcurly :: 'y' :: rcurly :: post.data))))) ["x", "y"] =
      String.mk (pre.data ++ (lcurly :: rcurly :: (mid.data ++
        (lcurly :: rcurly :: post.data)))) := by
    show Objects.replaceAll (Objects.replaceAll (String.mk (pre.data ++
        (lcurly :: 'x' :: rcurly :: (mid.data ++
          (lcurly :: 'y' :: rcurly :: post.data)))))
        (String.mk (lcurly :: "x".data ++ [rcurly]))
        (String.mk [lcurly, rcurly]))
      (String.mk (lcurly :: "y".data ++ [rcurly]))
      (String.mk [lcurly, rcurly]) = _
    have e1 : Objects.replaceAll (String.mk (pre.data ++
        (lcurly :: 'x' :: rcurly :: (mid.data ++
          (lcurly :: 'y' :: rcurly :: post.data)))))
        (String.mk (lcurly :: "x".data ++ [rcurly]))
        (String.mk [lcurly, rcurly]) =
        String.mk (pre.data ++ (lcurly :: rcurly :: (mid.data ++
          (lcurly :: 'y' :: rcurly :: post.data)))) := by
      refine congrArg String.mk ?_
      show Objects.replaceAllGo
        (pre.data ++ (lcurly :: 'x' :: rcurly :: (mid.data ++
          (lcurly :: 'y' :: rcurly :: post.data)))).length
        (pre.data ++ (lcurly :: 'x' :: rcurly :: (mid.data ++
          (lcurly :: 'y' :: rcurly :: post.data))))
        (lcurly :: ['x', rcurly]) [lcurly, rcurly] = _
      exact hstep1
    rw [e1]
    refine congrArg String.mk ?_
    show Objects.replaceAllGo
      (pre.data ++ (lcurly :: rcurly :: (mid.data ++
        (lcurly :: 'y' :: rcurly :: post.data)))).length
      (pre.data ++ (lcurly :: rcurly :: (mid.data ++
        (lcurly :: 'y' :: rcurly :: post.data))))
      (lcurly :: ['y', rcurly]) [lcurly, rcurly] = _
    exact hstep2
  constructor
  · have hsq : stripQuotes (String.mk ('"' :: (pre.data ++
        (lcurly :: 'x' :: rcurly :: (mid.data ++
          (lcurly :: 'y' :: rcurly :: post.data)))) ++ ['"'])) =
        String.mk (pre.data ++ (lcurly :: 'x' :: rcurly :: (mid.data ++
          (lcurly :: 'y' :: rcurly :: post.data)))) :=
      stripQuotes_mk '"' '"' _
    simp only [Objects.string, hsq, hfind]
    show Value.string (Objects.replace_placeholders (String.mk
        (pre.data ++ (lcurly :: 'x' :: rcurly :: (mid.data ++
          (lcurly :: 'y' :: rcurly :: post.data))))) ["x", "y"])
        (Objects.placeholders_values ["x", "y"]) = _
    rw [hrepl]
    rfl
  · refine congrArg String.mk ?_
    rw [refill_skip _ _ _ hp]
    rw [refill_hole]
    rw [refill_skip _ _ _ hm]
    rw [refill_hole]
    rw [refill_id _ _ hq]
    rfl

/-- C8 witness: the universal template round-trip at the concrete
surrounding texts `pre`, `mid` and `post.`. -/
theorem claim8_witness :
    Objects.string (String.mk ('"' :: ("pre".data ++ (lcurly :: 'x' ::
        rcurly :: ("mid".data ++ (lcurly :: 'y' :: rcurly ::
          "post.".data)))) ++ ['"'])) =
      Value.string (String.mk ("pre".data ++ (lcurly :: rcurly ::
          ("mid".data ++ (lcurly :: rcurly :: "post.".data)))))
        [Value.path ["x"], Value.path ["y"]] ∧
    String.mk (Objects.refill ("pre".data ++ (lcurly :: rcurly ::
        ("mid".data ++ (lcurly :: rcurly :: "post.".data)))) ["x", "y"]) =
      String.mk ("pre".data ++ (lcurly :: 'x' :: rcurly ::
        ("mid".data ++ (lcurly :: 'y' :: rcurly :: "post.".data)))) :=
  claim8_string_template_roundtrip "pre" "mid" "post."
    (by decide) (by decide) (by decide)

/-- C9 counterexample: for the expression node wrapping the unary value
`1`, `Objects.expression` does not return the normalized value itself — it
returns the one-element sequence holding it (pinned by
`test_objects_expression`: `result == [Objects.values(...)]`). -/
theorem claim9_counterexample :
    Objects.expression (.unary (.numberN 1)) ≠
      Objects.ExprResult.single (Objects.values (.numberN 1)) := by
  simp [Objects.expression]

/-- C9 (amended): for every expression node wrapping a single unary value,
`Objects.expression` normalizes the value and collapses the trivial
expression — no expression-object wrapper — returning the one-element
sequence holding exactly the normalized value. -/
theorem claim9_unary_collapsed (pv : Objects.ValueNode) :
    Objects.expression (.unary pv) =
      Objects.ExprResult.many [Objects.values pv] :=
  rfl

/-- C10: `Compiler.output` on an absent output node returns the empty
list, never a null value, and on a present node returns the ordered list
of the node's child token values, so callers can always iterate the
result. -/
theorem claim10_output_total :
    Compiler.output none = [] ∧
    ∀ t : OutputNode, Compiler.output (some t) =
      t.children.map Token.value :=
  ⟨rfl, fun _ => rfl⟩

end Storyscript
